import Mathlib

/-!
Shallow embedding of the `TextBuffer` editing core of fire-notes
(`src/text_buffer.rs`), together with proofs of the specification claims.

Modelling conventions:
* the ropey `Rope` is modelled as a `List Char` of Unicode scalar values;
  `char`/`insert`/`remove`/`slice`/`char_to_line`/`line_to_char`/`line` are
  modelled with their documented ropey bounds conditions made explicit;
* every operation that can panic in Rust (an out-of-bounds rope index or
  range, or an unchecked `usize` subtraction that would underflow) is
  modelled in the `Option` monad, `none` meaning "panics";
* `Rust` `saturating_sub` is Lean's truncated `Nat` subtraction, while a
  plain `usize` subtraction is the checked `usub` below (underflow = panic)
  unless a syntactic guard in the same function already makes it safe;
* `char::is_alphanumeric` / `char::is_whitespace` are modelled by Lean's
  `Char.isAlphanum` / `Char.isWhitespace`, i.e. the model is faithful on the
  ASCII range that every concrete scenario in the specification uses.
-/

namespace FireNotes

/-- Checked `usize` subtraction: a plain Rust `a - b` panics on underflow. -/
def usub (a b : Nat) : Option Nat := if b ≤ a then some (a - b) else none

/-- Number of newline characters in a rope; ropey's `len_lines` is this plus one. -/
def countNl : List Char → Nat
  | [] => 0
  | c :: cs => (if c = '\n' then 1 else 0) + countNl cs

/-- ropey `Rope::len_lines`: number of lines (always at least 1). -/
def lenLines (r : List Char) : Nat := countNl r + 1

/-- ropey `Rope::char`: panics when the index is out of bounds. -/
def ropeChar (r : List Char) (i : Nat) : Option Char := r.get? i

/-- ropey `Rope::insert` at a char index: panics when `i > len_chars`. -/
def ropeInsert (r : List Char) (i : Nat) (t : List Char) : Option (List Char) :=
  if i ≤ r.length then some (r.take i ++ t ++ r.drop i) else none

/-- ropey `Rope::remove (a..b)`: panics when `a > b` or `b > len_chars`. -/
def ropeRemove (r : List Char) (a b : Nat) : Option (List Char) :=
  if a ≤ b ∧ b ≤ r.length then some (r.take a ++ r.drop b) else none

/-- ropey `Rope::slice (a..b)` materialised to a string: same bounds as `remove`. -/
def ropeSlice (r : List Char) (a b : Nat) : Option (List Char) :=
  if a ≤ b ∧ b ≤ r.length then some ((r.take b).drop a) else none

/-- ropey `Rope::char_to_line`: panics when `i > len_chars`; the line holding
char `i` is the number of newlines strictly before index `i`. -/
def charToLine (r : List Char) (i : Nat) : Option Nat :=
  if i ≤ r.length then some (countNl (r.take i)) else none

/-- Char index of the start of line `l` (total core of ropey `line_to_char`);
for `l ≥ len_lines` it returns `r.length`. -/
def lineStartPos : List Char → Nat → Nat
  | _, 0 => 0
  | [], _ + 1 => 0
  | c :: cs, l + 1 => if c = '\n' then 1 + lineStartPos cs l else 1 + lineStartPos cs (l + 1)

/-- ropey `Rope::line_to_char`: panics when `l > len_lines` (`l = len_lines` is
the documented one-past-the-end case and yields `len_chars`). -/
def lineToChar (r : List Char) (l : Nat) : Option Nat :=
  if l ≤ lenLines r then some (lineStartPos r l) else none

/-- ropey `Rope::line(l).len_chars()`: panics when `l ≥ len_lines`; the length
of line `l` including its trailing newline when it has one. -/
def lineLenAt (r : List Char) (l : Nat) : Option Nat :=
  if l < lenLines r then some (lineStartPos r (l + 1) - lineStartPos r l) else none

/-- `src/text_buffer.rs` word-character test: alphanumeric or underscore. -/
def isWordChar (c : Char) : Bool := c.isAlphanum || c = '_'

/-- The `category_check` classifier of `src/text_buffer.rs`:
1 = word char, 2 = whitespace, 3 = other. -/
def category (c : Char) : Nat :=
  if isWordChar c then 1 else if c.isWhitespace then 2 else 3

/-- The `Action` enum of `src/text_buffer.rs`. -/
inductive Action where
  | insert (start : Nat) (text : List Char)
  | delete (start : Nat) (text : List Char)
  | replace (start : Nat) (old_text new_text : List Char)
deriving DecidableEq

/-- The `TextBuffer` struct of `src/text_buffer.rs`. -/
structure TextBuffer where
  rope : List Char
  cursor : Nat
  selection_anchor : Option Nat
  undo_stack : List Action
  redo_stack : List Action
deriving DecidableEq

namespace TextBuffer

/-- `TextBuffer::new`. -/
def new : TextBuffer := ⟨[], 0, none, [], []⟩

/-- `TextBuffer::from_str`. -/
def from_str (t : List Char) : TextBuffer := ⟨t, 0, none, [], []⟩

/-- `TextBuffer::content` (total: `slice(..)` of the whole rope cannot panic). -/
def content (b : TextBuffer) : List Char := b.rope

/-- `TextBuffer::len` (`len_chars`). -/
def len (b : TextBuffer) : Nat := b.rope.length

/-- `TextBuffer::len_lines`. -/
def len_lines (b : TextBuffer) : Nat := lenLines b.rope

/-- `TextBuffer::has_selection`. -/
def has_selection (b : TextBuffer) : Bool :=
  b.selection_anchor.isSome && b.selection_anchor ≠ some b.cursor

/-- `TextBuffer::selection_range`. -/
def selection_range (b : TextBuffer) : Option (Nat × Nat) :=
  match b.selection_anchor with
  | some anchor =>
    if anchor = b.cursor then none
    else if anchor < b.cursor then some (anchor, b.cursor)
    else some (b.cursor, anchor)
  | none => none

/-- `TextBuffer::selected_text`. -/
def selected_text (b : TextBuffer) : Option (List Char) :=
  match b.selection_range with
  | some (s, e) => ropeSlice b.rope s e
  | none => pure []

/-- `TextBuffer::record_action`: push onto the undo stack, clear the redo stack. -/
def record_action (b : TextBuffer) (a : Action) : TextBuffer :=
  { b with undo_stack := a :: b.undo_stack, redo_stack := [] }

/-- `TextBuffer::delete_selection`. -/
def delete_selection (b : TextBuffer) : Option TextBuffer :=
  match b.selection_range with
  | some (s, e) => do
    let text ← ropeSlice b.rope s e
    let b := b.record_action (.delete s text)
    let r ← ropeRemove b.rope s e
    pure { b with rope := r, cursor := s, selection_anchor := none }
  | none => pure b

/-- Common tail of `TextBuffer::insert` / `insert_str`: record the `Insert`
action, splice the text in at the cursor, advance the cursor. -/
def insert_core (b : TextBuffer) (t : List Char) : Option TextBuffer := do
  let b := b.record_action (.insert b.cursor t)
  let r ← ropeInsert b.rope b.cursor t
  pure { b with rope := r, cursor := b.cursor + t.length }

/-- `TextBuffer::insert`. -/
def insert (b : TextBuffer) (ch : Char) : Option TextBuffer := do
  let b ← if b.has_selection then b.delete_selection else pure b
  b.insert_core [ch]

/-- `TextBuffer::insert_str`. -/
def insert_str (b : TextBuffer) (t : List Char) : Option TextBuffer := do
  let b ← if b.has_selection then b.delete_selection else pure b
  b.insert_core t

/-- The rope/cursor effect of undoing one `Action` (the `match` inside
`TextBuffer::undo`). -/
def apply_undo (a : Action) (r : List Char) : Option (List Char × Nat) :=
  match a with
  | .insert start text => do
    let r' ← ropeRemove r start (start + text.length)
    pure (r', start)
  | .delete start text => do
    let r' ← ropeInsert r start text
    pure (r', start + text.length)
  | .replace start old_text new_text => do
    let r1 ← ropeRemove r start (start + new_text.length)
    let r' ← ropeInsert r1 start old_text
    pure (r', start + old_text.length)

/-- `TextBuffer::undo`. -/
def undo (b : TextBuffer) : Option TextBuffer :=
  match b.undo_stack with
  | [] => pure b
  | a :: rest => do
    let rc ← apply_undo a b.rope
    pure { rope := rc.1, cursor := rc.2, selection_anchor := none,
           undo_stack := rest, redo_stack := a :: b.redo_stack }

/-- The rope/cursor effect of redoing one `Action` (the `match` inside
`TextBuffer::redo`). -/
def apply_redo (a : Action) (r : List Char) : Option (List Char × Nat) :=
  match a with
  | .insert start text => do
    let r' ← ropeInsert r start text
    pure (r', start + text.length)
  | .delete start text => do
    let r' ← ropeRemove r start (start + text.length)
    pure (r', start)
  | .replace start old_text new_text => do
    let r1 ← ropeRemove r start (start + old_text.length)
    let r' ← ropeInsert r1 start new_text
    pure (r', start + new_text.length)

/-- `TextBuffer::redo`. -/
def redo (b : TextBuffer) : Option TextBuffer :=
  match b.redo_stack with
  | [] => pure b
  | a :: rest => do
    let rc ← apply_redo a b.rope
    pure { rope := rc.1, cursor := rc.2, selection_anchor := none,
           undo_stack := a :: b.undo_stack, redo_stack := rest }

/-- `TextBuffer::backspace`. -/
def backspace (b : TextBuffer) : Option TextBuffer :=
  if b.has_selection then b.delete_selection
  else if b.cursor > 0 then do
    let ch ← ropeSlice b.rope (b.cursor - 1) b.cursor
    let b := b.record_action (.delete (b.cursor - 1) ch)
    let r ← ropeRemove b.rope (b.cursor - 1) b.cursor
    pure { b with rope := r, cursor := b.cursor - 1 }
  else pure b

/-- `TextBuffer::delete`. -/
def delete (b : TextBuffer) : Option TextBuffer :=
  if b.has_selection then b.delete_selection
  else if b.cursor < b.rope.length then do
    let ch ← ropeSlice b.rope b.cursor (b.cursor + 1)
    let b := b.record_action (.delete b.cursor ch)
    let r ← ropeRemove b.rope b.cursor (b.cursor + 1)
    pure { b with rope := r }
  else pure b

end TextBuffer

/-- Backward category-run scan: the `while start > 0 && category_check(char(start-1)) == cat`
loops of `delete_word_left`, `move_word_left` and `select_word_at_cursor`. -/
def skipCatBack (r : List Char) (cat : Nat) : Nat → Option Nat
  | 0 => pure 0
  | p + 1 => do
    let c ← ropeChar r p
    if category c = cat then skipCatBack r cat p else pure (p + 1)

/-- The first loop of `delete_word_left`: scan whitespace backwards counting
the characters skipped (`space_count`). -/
def wsBackCount (r : List Char) : Nat → Option (Nat × Nat)
  | 0 => pure (0, 0)
  | p + 1 => do
    let c ← ropeChar r p
    if category c = 2 then do
      let qk ← wsBackCount r p
      pure (qk.1, qk.2 + 1)
    else pure (p + 1, 0)

/-- Length of the maximal prefix of a list whose chars all have category `cat`:
the forward `while pos < len && category_check(char(pos)) == cat` loops. -/
def catRunLen (cat : Nat) : List Char → Nat
  | [] => 0
  | c :: cs => if category c = cat then catRunLen cat cs + 1 else 0

namespace TextBuffer

/-- `TextBuffer::delete_word_left`. -/
def delete_word_left (b : TextBuffer) : Option TextBuffer := do
  if b.has_selection then b.delete_selection
  else if b.cursor = 0 then pure b
  else do
    let sc ← wsBackCount b.rope b.cursor
    let start1 := sc.1
    let space_count := sc.2
    let start ←
      if space_count > 1 then pure start1
      else do
        let s0 := if space_count = 1 then b.cursor else start1
        let s1 ← skipCatBack b.rope 2 s0
        if s1 > 0 then do
          let c ← ropeChar b.rope (s1 - 1)
          skipCatBack b.rope (category c) s1
        else pure s1
    if start < b.cursor then do
      let text ← ropeSlice b.rope start b.cursor
      let b := b.record_action (.delete start text)
      let r ← ropeRemove b.rope start b.cursor
      pure { b with rope := r, cursor := start }
    else pure b

/-- `TextBuffer::start_selection`. -/
def start_selection (b : TextBuffer) : TextBuffer :=
  if b.selection_anchor.isNone then { b with selection_anchor := some b.cursor } else b

/-- `TextBuffer::clear_selection`. -/
def clear_selection (b : TextBuffer) : TextBuffer := { b with selection_anchor := none }

/-- The `if selecting { start_selection } else { clear_selection }` prologue
shared by every movement operation. -/
def sel_update (b : TextBuffer) (selecting : Bool) : TextBuffer :=
  if selecting then b.start_selection else b.clear_selection

/-- `TextBuffer::move_left`. -/
def move_left (b : TextBuffer) (selecting : Bool) : Option TextBuffer :=
  let b := b.sel_update selecting
  pure (if b.cursor > 0 then { b with cursor := b.cursor - 1 } else b)

/-- `TextBuffer::move_right`. -/
def move_right (b : TextBuffer) (selecting : Bool) : Option TextBuffer :=
  let b := b.sel_update selecting
  pure (if b.cursor < b.rope.length then { b with cursor := b.cursor + 1 } else b)

/-- `TextBuffer::move_word_left`. -/
def move_word_left (b : TextBuffer) (selecting : Bool) : Option TextBuffer := do
  let b := b.sel_update selecting
  if b.cursor = 0 then pure b
  else do
    let p1 ← skipCatBack b.rope 2 b.cursor
    let p ←
      if p1 > 0 then do
        let c ← ropeChar b.rope (p1 - 1)
        skipCatBack b.rope (category c) p1
      else pure p1
    pure { b with cursor := p }

/-- `TextBuffer::move_word_right`. -/
def move_word_right (b : TextBuffer) (selecting : Bool) : Option TextBuffer := do
  let b := b.sel_update selecting
  if b.cursor ≥ b.rope.length then pure b
  else do
    let p1 := b.cursor + catRunLen 2 (b.rope.drop b.cursor)
    if p1 < b.rope.length then do
      let c ← ropeChar b.rope p1
      pure { b with cursor := p1 + catRunLen (category c) (b.rope.drop p1) }
    else pure { b with cursor := p1 }

/-- `TextBuffer::move_up`. -/
def move_up (b : TextBuffer) (selecting : Bool) : Option TextBuffer := do
  let b := b.sel_update selecting
  let line ← charToLine b.rope b.cursor
  if line = 0 then pure { b with cursor := 0 }
  else do
    let line_start ← lineToChar b.rope line
    let col ← usub b.cursor line_start
    let prev_line_start ← lineToChar b.rope (line - 1)
    let pll ← lineLenAt b.rope (line - 1)
    let prev_line_len := pll - 1
    pure { b with cursor := prev_line_start + min col prev_line_len }

/-- `TextBuffer::move_down`. -/
def move_down (b : TextBuffer) (selecting : Bool) : Option TextBuffer := do
  let b := b.sel_update selecting
  let line ← charToLine b.rope b.cursor
  let total_lines := lenLines b.rope
  if line ≥ total_lines - 1 then pure { b with cursor := b.rope.length }
  else do
    let line_start ← lineToChar b.rope line
    let col ← usub b.cursor line_start
    let next_line_start ← lineToChar b.rope (line + 1)
    let nll ← lineLenAt b.rope (line + 1)
    let next_line_len := if line + 1 < total_lines - 1 then nll - 1 else nll
    pure { b with cursor := next_line_start + min col next_line_len }

/-- `TextBuffer::move_to_line_start`. -/
def move_to_line_start (b : TextBuffer) (selecting : Bool) : Option TextBuffer := do
  let b := b.sel_update selecting
  let line ← charToLine b.rope b.cursor
  let s ← lineToChar b.rope line
  pure { b with cursor := s }

/-- `TextBuffer::move_to_line_end`. -/
def move_to_line_end (b : TextBuffer) (selecting : Bool) : Option TextBuffer := do
  let b := b.sel_update selecting
  let line ← charToLine b.rope b.cursor
  let line_len ← lineLenAt b.rope line
  let line_start ← lineToChar b.rope line
  let e := line_start + line_len
  if e > line_start then do
    let c ← ropeChar b.rope (e - 1)
    pure { b with cursor := if c = '\n' then e - 1 else e }
  else pure { b with cursor := e }

/-- `TextBuffer::move_to_start`. -/
def move_to_start (b : TextBuffer) (selecting : Bool) : Option TextBuffer :=
  pure { b.sel_update selecting with cursor := 0 }

/-- `TextBuffer::move_to_end`. -/
def move_to_end (b : TextBuffer) (selecting : Bool) : Option TextBuffer :=
  let b := b.sel_update selecting
  pure { b with cursor := b.rope.length }

/-- `TextBuffer::set_cursor_by_line_col`. -/
def set_cursor_by_line_col (b : TextBuffer) (line col : Nat) (selecting : Bool) :
    Option TextBuffer := do
  let b := b.sel_update selecting
  let total_lines := lenLines b.rope
  if total_lines = 0 then pure { b with cursor := 0 }
  else do
    let target_line := min line (total_lines - 1)
    let line_start ← lineToChar b.rope target_line
    let line_len ← lineLenAt b.rope target_line
    let effective_line_len := if target_line < total_lines - 1 then line_len - 1 else line_len
    let target_col := min col effective_line_len
    pure { b with cursor := line_start + target_col }

/-- `TextBuffer::select_all`. -/
def select_all (b : TextBuffer) : Option TextBuffer :=
  pure { b with selection_anchor := some 0, cursor := b.rope.length }

/-- `TextBuffer::select_word_at_cursor`. -/
def select_word_at_cursor (b : TextBuffer) : Option TextBuffer := do
  let n := b.rope.length
  if n = 0 then pure b
  else do
    let check_idx := if b.cursor = n then n - 1 else b.cursor
    let c ← ropeChar b.rope check_idx
    let target_category := category c
    let start ← skipCatBack b.rope target_category check_idx
    let e := check_idx + 1 + catRunLen target_category (b.rope.drop (check_idx + 1))
    pure { b with selection_anchor := some start, cursor := e }

/-- `TextBuffer::select_line_at_cursor`. -/
def select_line_at_cursor (b : TextBuffer) : Option TextBuffer := do
  let n := b.rope.length
  if n = 0 then pure b
  else do
    let line_idx ← charToLine b.rope b.cursor
    let start ← lineToChar b.rope line_idx
    let e ← if line_idx + 1 < lenLines b.rope then lineToChar b.rope (line_idx + 1) else pure n
    pure { b with selection_anchor := some start, cursor := e }

/-- `TextBuffer::char_to_line_col`. -/
def char_to_line_col (b : TextBuffer) (char_idx : Nat) : Option (Nat × Nat) := do
  let line ← charToLine b.rope char_idx
  let line_start ← lineToChar b.rope line
  let col ← usub char_idx line_start
  pure (line, col)

/-- `TextBuffer::get_line_range_to_move`. -/
def get_line_range_to_move (b : TextBuffer) : Option (Nat × Nat) :=
  match b.selection_range with
  | some (s, e) => do
    let start_line ← charToLine b.rope s
    let el ← charToLine b.rope e
    let ls ← lineToChar b.rope el
    let end_line := if e > 0 ∧ e = ls then el - 1 else el
    pure (start_line, end_line)
  | none => do
    let line ← charToLine b.rope b.cursor
    pure (line, line)

/-- The newline-repair prelude of `move_lines_up` / `move_lines_down`:
if the rope is nonempty and its last char is not `'\n'`, append one
(`rope.insert_char(len_chars, '\n')`, unconditionally valid). -/
def ensure_trailing_newline (r : List Char) : List Char :=
  if 0 < r.length then
    if r.getD (r.length - 1) ' ' ≠ '\n' then r ++ ['\n'] else r
  else r

/-- `TextBuffer::move_lines_up`. -/
def move_lines_up (b : TextBuffer) : Option TextBuffer := do
  let se0 ← b.get_line_range_to_move
  if se0.1 = 0 then pure b
  else do
    let swap_target_line := se0.1 - 1
    let b := { b with rope := ensure_trailing_newline b.rope }
    let se ← b.get_line_range_to_move
    let start_line := se.1
    let end_line := se.2
    let target_start_char ← lineToChar b.rope swap_target_line
    let block_start_char ← lineToChar b.rope start_line
    let block_end_char ← lineToChar b.rope (end_line + 1)
    let block_text ← ropeSlice b.rope block_start_char block_end_char
    let r1 ← ropeRemove b.rope block_start_char block_end_char
    let r2 ← ropeInsert r1 target_start_char block_text
    let move_amount ← usub block_start_char target_start_char
    let cursor' ← usub b.cursor move_amount
    let anchor' ← match b.selection_anchor with
      | some a => do
        let a' ← usub a move_amount
        pure (some a')
      | none => pure none
    pure { b with rope := r2, cursor := cursor', selection_anchor := anchor' }

/-- `TextBuffer::move_lines_down`. -/
def move_lines_down (b : TextBuffer) : Option TextBuffer := do
  let se0 ← b.get_line_range_to_move
  let total_lines0 := lenLines b.rope
  if se0.2 + 1 ≥ total_lines0 then pure b
  else do
    let b := { b with rope := ensure_trailing_newline b.rope }
    let se ← b.get_line_range_to_move
    let start_line := se.1
    let end_line := se.2
    let total_lines := lenLines b.rope
    if end_line + 1 ≥ total_lines then pure b
    else do
      let block_start_char ← lineToChar b.rope start_line
      let block_end_char ← lineToChar b.rope (end_line + 1)
      let block_len ← usub block_end_char block_start_char
      let block_text ← ropeSlice b.rope block_start_char block_end_char
      let target_line_below := end_line + 1
      let insertion_char_idx ← lineToChar b.rope (target_line_below + 1)
      let r1 ← ropeRemove b.rope block_start_char block_end_char
      let new_insertion_idx ← usub insertion_char_idx block_len
      let r2 ← ropeInsert r1 new_insertion_idx block_text
      let move_up_len ← usub new_insertion_idx block_start_char
      let anchor' ← match b.selection_anchor with
        | some a => pure (some (a + move_up_len))
        | none => pure none
      pure { b with rope := r2, cursor := b.cursor + move_up_len, selection_anchor := anchor' }

end TextBuffer

/-- One public mutating operation of the `TextBuffer` API, with its arguments. -/
inductive Op where
  | insert (ch : Char)
  | insert_str (t : List Char)
  | backspace
  | delete
  | delete_word_left
  | delete_selection
  | move_left (selecting : Bool)
  | move_right (selecting : Bool)
  | move_word_left (selecting : Bool)
  | move_word_right (selecting : Bool)
  | move_up (selecting : Bool)
  | move_down (selecting : Bool)
  | move_to_line_start (selecting : Bool)
  | move_to_line_end (selecting : Bool)
  | move_to_start (selecting : Bool)
  | move_to_end (selecting : Bool)
  | set_cursor_by_line_col (line col : Nat) (selecting : Bool)
  | start_selection
  | clear_selection
  | select_all
  | select_word_at_cursor
  | select_line_at_cursor
  | move_lines_up
  | move_lines_down
  | undo
  | redo
deriving DecidableEq

/-- Dispatch one operation on a buffer (`none` = that call panics). -/
def applyOp (b : TextBuffer) : Op → Option TextBuffer
  | .insert ch => b.insert ch
  | .insert_str t => b.insert_str t
  | .backspace => b.backspace
  | .delete => b.delete
  | .delete_word_left => b.delete_word_left
  | .delete_selection => b.delete_selection
  | .move_left s => b.move_left s
  | .move_right s => b.move_right s
  | .move_word_left s => b.move_word_left s
  | .move_word_right s => b.move_word_right s
  | .move_up s => b.move_up s
  | .move_down s => b.move_down s
  | .move_to_line_start s => b.move_to_line_start s
  | .move_to_line_end s => b.move_to_line_end s
  | .move_to_start s => b.move_to_start s
  | .move_to_end s => b.move_to_end s
  | .set_cursor_by_line_col l c s => b.set_cursor_by_line_col l c s
  | .start_selection => pure b.start_selection
  | .clear_selection => pure b.clear_selection
  | .select_all => b.select_all
  | .select_word_at_cursor => b.select_word_at_cursor
  | .select_line_at_cursor => b.select_line_at_cursor
  | .move_lines_up => b.move_lines_up
  | .move_lines_down => b.move_lines_down
  | .undo => b.undo
  | .redo => b.redo

/-- Run a sequence of operations; `none` as soon as one panics. -/
def run (b : TextBuffer) : List Op → Option TextBuffer
  | [] => some b
  | op :: ops => do
    let b' ← applyOp b op
    run b' ops

/-- Length bookkeeping of undoing one action: given the current rope length,
the rope length after the undo, or `none` when the undo would use an
out-of-bounds index. Undo success depends only on the rope's length. -/
def invOkLen : Action → Nat → Option Nat
  | .insert s t, n => if s + t.length ≤ n then some (n - t.length) else none
  | .delete s t, n => if s ≤ n then some (n + t.length) else none
  | .replace s o w, n => if s + w.length ≤ n then some (n - w.length + o.length) else none

/-- Length bookkeeping of redoing one action (mirror of `invOkLen`). -/
def fwdOkLen : Action → Nat → Option Nat
  | .insert s t, n => if s ≤ n then some (n + t.length) else none
  | .delete s t, n => if s + t.length ≤ n then some (n - t.length) else none
  | .replace s o w, n => if s + o.length ≤ n then some (n - o.length + w.length) else none

/-- The whole undo stack can be popped and applied in sequence without any
out-of-bounds rope access, starting from a rope of length `n`. -/
def undoLenOK : List Action → Nat → Bool
  | [], _ => true
  | a :: rest, n =>
    match invOkLen a n with
    | some m => undoLenOK rest m
    | none => false

/-- The whole redo stack can be popped and re-applied in sequence without any
out-of-bounds rope access, starting from a rope of length `n`. -/
def redoLenOK : List Action → Nat → Bool
  | [], _ => true
  | a :: rest, n =>
    match fwdOkLen a n with
    | some m => redoLenOK rest m
    | none => false

/-- Anchor-within-bounds check. -/
def anchorOkb : Option Nat → Nat → Bool
  | some a, n => decide (a ≤ n)
  | none, _ => true

/-- The internal-consistency invariant of a `TextBuffer`: cursor and anchor
within bounds, and both history stacks replayable without out-of-bounds
accesses. It holds for `new`/`from_str` buffers and is preserved by every
operation. -/
def invb (b : TextBuffer) : Bool :=
  decide (b.cursor ≤ b.rope.length) && anchorOkb b.selection_anchor b.rope.length &&
    undoLenOK b.undo_stack b.rope.length && redoLenOK b.redo_stack b.rope.length

/-- Iterate `undo` `n` times. -/
def undoN (b : TextBuffer) : Nat → Option TextBuffer
  | 0 => some b
  | n + 1 => do
    let b' ← b.undo
    undoN b' n

/-- Operations that touch neither the rope nor the history stacks
(all cursor/selection movement). -/
def pureMove : Op → Bool
  | .move_left _ | .move_right _ | .move_word_left _ | .move_word_right _
  | .move_up _ | .move_down _ | .move_to_line_start _ | .move_to_line_end _
  | .move_to_start _ | .move_to_end _ | .set_cursor_by_line_col _ _ _
  | .start_selection | .clear_selection | .select_all
  | .select_word_at_cursor | .select_line_at_cursor => true
  | _ => false

/-- The undo stack against the ghost history `H`: popping the actions in
order succeeds, each pop lands exactly on the next recorded rope content of
`H`, and each popped action redoes back to the rope it was popped from. -/
def Hist : List Action → List Char → List (List Char) → Prop
  | [], _, H => H = []
  | a :: rest, r, H => ∃ r' H', H = r' :: H' ∧
      (TextBuffer.apply_undo a r).map Prod.fst = some r' ∧
      (TextBuffer.apply_redo a r').map Prod.fst = some r ∧ Hist rest r' H'

/-- Mirror of `Hist` for the redo stack (no history list: redo contents are
future states, recorded only through their round-trip property). -/
def RedoOK : List Action → List Char → Prop
  | [], _ => True
  | a :: rest, r => ∃ r', (TextBuffer.apply_redo a r).map Prod.fst = some r' ∧
      (TextBuffer.apply_undo a r').map Prod.fst = some r ∧ RedoOK rest r'

/-- States reachable from a `from_str` buffer by the public operations
*excluding* `move_lines_up`/`move_lines_down`, instrumented with the ghost
list `H` of recorded prior rope contents: whenever an edit records an action,
the rope content current just before that action's rope mutation is pushed;
`undo` pops one entry; a successful `redo` pushes the pre-redo rope back.
`H.get i` is therefore the prior rope state that `i + 1` undos should
restore. (Operations that are no-ops on the state need no constructor: they
reach no new state.) -/
inductive ReachH : TextBuffer → List (List Char) → Prop where
  | init (t : List Char) : ReachH (TextBuffer.from_str t) []
  | mv {b H op b'} : ReachH b H → pureMove op = true → applyOp b op = some b' →
      ReachH b' H
  | ins_nosel {b H ch b'} : ReachH b H → b.has_selection = false →
      b.insert ch = some b' → ReachH b' (b.rope :: H)
  | ins_sel {b H ch bm b'} : ReachH b H → b.has_selection = true →
      b.delete_selection = some bm → bm.insert_core [ch] = some b' →
      ReachH b' (bm.rope :: b.rope :: H)
  | insstr_nosel {b H t b'} : ReachH b H → b.has_selection = false →
      b.insert_str t = some b' → ReachH b' (b.rope :: H)
  | insstr_sel {b H t bm b'} : ReachH b H → b.has_selection = true →
      b.delete_selection = some bm → bm.insert_core t = some b' →
      ReachH b' (bm.rope :: b.rope :: H)
  | delsel {b H b'} : ReachH b H → b.has_selection = true →
      b.delete_selection = some b' → ReachH b' (b.rope :: H)
  | bsp {b H b'} : ReachH b H → b.has_selection = false → 0 < b.cursor →
      b.backspace = some b' → ReachH b' (b.rope :: H)
  | del {b H b'} : ReachH b H → b.has_selection = false →
      b.cursor < b.rope.length → b.delete = some b' → ReachH b' (b.rope :: H)
  | dwl {b H b'} : ReachH b H → b.has_selection = false → 0 < b.cursor →
      b.delete_word_left = some b' → ReachH b' (b.rope :: H)
  | undo_step {b H r b'} : ReachH b (r :: H) → b.undo = some b' → ReachH b' H
  | redo_step {b H b'} : ReachH b H → b.redo_stack ≠ [] → b.redo = some b' →
      ReachH b' (b.rope :: H)

/-! ### Basic lemmas about the rope model -/

lemma countNl_append (xs ys : List Char) : countNl (xs ++ ys) = countNl xs + countNl ys := by
  induction xs with
  | nil => simp [countNl]
  | cons c cs ih => simp [countNl, ih]; omega

lemma countNl_take_le (r : List Char) (i : Nat) : countNl (r.take i) ≤ countNl r := by
  conv_rhs => rw [← List.take_append_drop i r]
  rw [countNl_append]
  omega

lemma lineStartPos_zero (r : List Char) : lineStartPos r 0 = 0 := by
  cases r <;> rfl

lemma lineStartPos_nil (l : Nat) : lineStartPos [] l = 0 := by
  cases l <;> rfl

lemma lineStartPos_cons_succ (c : Char) (cs : List Char) (m : Nat) :
    lineStartPos (c :: cs) (m + 1) =
      if c = '\n' then 1 + lineStartPos cs m else 1 + lineStartPos cs (m + 1) := rfl

lemma lineStartPos_le_length (r : List Char) (l : Nat) : lineStartPos r l ≤ r.length := by
  induction r generalizing l with
  | nil => cases l <;> simp [lineStartPos]
  | cons c cs ih =>
    cases l with
    | zero => simp [lineStartPos]
    | succ m =>
      have h1 := ih m
      have h2 := ih (m + 1)
      simp only [lineStartPos, List.length_cons]
      split <;> omega

lemma lineStartPos_mono (r : List Char) {l l' : Nat} (h : l ≤ l') :
    lineStartPos r l ≤ lineStartPos r l' := by
  induction r generalizing l l' with
  | nil => rw [lineStartPos_nil, lineStartPos_nil]
  | cons c cs ih =>
    cases l with
    | zero => rw [lineStartPos_zero]; exact Nat.zero_le _
    | succ m =>
      cases l' with
      | zero => omega
      | succ m' =>
        have hm : m ≤ m' := by omega
        have h1 := ih hm
        have h2 := ih (show m + 1 ≤ m' + 1 by omega)
        rw [lineStartPos_cons_succ, lineStartPos_cons_succ]
        by_cases hc : c = '\n'
        · rw [if_pos hc, if_pos hc]; omega
        · rw [if_neg hc, if_neg hc]; omega

lemma lineStartPos_le_of_le_countNl_take {r : List Char} {l i : Nat}
    (h : l ≤ countNl (r.take i)) : lineStartPos r l ≤ i := by
  induction r generalizing l i with
  | nil =>
    simp only [List.take_nil, countNl] at h
    rw [lineStartPos_nil]
    exact Nat.zero_le _
  | cons c cs ih =>
    cases l with
    | zero => rw [lineStartPos_zero]; exact Nat.zero_le _
    | succ m =>
      cases i with
      | zero => simp [countNl] at h
      | succ j =>
        simp only [List.take_succ_cons, countNl] at h
        rw [lineStartPos_cons_succ]
        by_cases hc : c = '\n'
        · rw [if_pos hc] at h ⊢
          have := ih (show m ≤ countNl (cs.take j) by omega)
          omega
        · rw [if_neg hc] at h ⊢
          have := ih (show m + 1 ≤ countNl (cs.take j) by omega)
          omega

lemma countNl_take_lt_of_lt_lineStartPos {r : List Char} {l i : Nat}
    (h : i < lineStartPos r l) : countNl (r.take i) < l := by
  by_contra hcon
  exact absurd (lineStartPos_le_of_le_countNl_take (Nat.le_of_not_lt hcon)) (Nat.not_le_of_lt h)

lemma lineStartPos_countNl_take_le (r : List Char) (i : Nat) :
    lineStartPos r (countNl (r.take i)) ≤ i :=
  lineStartPos_le_of_le_countNl_take (Nat.le_refl _)

lemma le_lineStartPos_succ {r : List Char} {i : Nat} (h : i ≤ r.length) :
    i ≤ lineStartPos r (countNl (r.take i) + 1) := by
  induction r generalizing i with
  | nil => simp only [List.length_nil, Nat.le_zero] at h; omega
  | cons c cs ih =>
    cases i with
    | zero => exact Nat.zero_le _
    | succ j =>
      have hj : j ≤ cs.length := by simpa using h
      have hrec := ih hj
      simp only [List.take_succ_cons, countNl]
      by_cases hc : c = '\n'
      · rw [if_pos hc]
        have he : 1 + countNl (cs.take j) + 1 = (countNl (cs.take j) + 1) + 1 := by omega
        rw [he, lineStartPos_cons_succ, if_pos hc]
        omega
      · rw [if_neg hc]
        have he : 0 + countNl (cs.take j) + 1 = countNl (cs.take j) + 1 := by omega
        rw [he, lineStartPos_cons_succ, if_neg hc]
        omega

lemma lt_lineStartPos_succ_of_lt {r : List Char} {i : Nat} (h : i ≤ r.length)
    (hlt : countNl (r.take i) < countNl r) :
    i < lineStartPos r (countNl (r.take i) + 1) := by
  induction r generalizing i with
  | nil => simp [countNl] at hlt
  | cons c cs ih =>
    cases i with
    | zero =>
      simp only [List.take_zero, countNl]
      rw [show (0 : Nat) + 1 = 1 from rfl, lineStartPos_cons_succ]
      by_cases hc : c = '\n' <;> simp [hc, lineStartPos_zero] <;> omega
    | succ j =>
      have hj : j ≤ cs.length := by simpa using h
      simp only [List.take_succ_cons, countNl] at hlt ⊢
      by_cases hc : c = '\n'
      · rw [if_pos hc] at hlt ⊢
        have hrec := ih hj (by omega)
        have he : 1 + countNl (cs.take j) + 1 = (countNl (cs.take j) + 1) + 1 := by omega
        rw [he, lineStartPos_cons_succ, if_pos hc]
        omega
      · rw [if_neg hc] at hlt ⊢
        have hrec := ih hj (by omega)
        have he : 0 + countNl (cs.take j) + 1 = countNl (cs.take j) + 1 := by omega
        rw [he, lineStartPos_cons_succ, if_neg hc]
        omega

lemma lineStartPos_le_append (r t : List Char) (l : Nat) :
    lineStartPos r l ≤ lineStartPos (r ++ t) l := by
  induction r generalizing l with
  | nil => rw [lineStartPos_nil]; exact Nat.zero_le _
  | cons c cs ih =>
    cases l with
    | zero => rw [lineStartPos_zero]; exact Nat.zero_le _
    | succ m =>
      have h1 := ih m
      have h2 := ih (m + 1)
      rw [List.cons_append, lineStartPos_cons_succ, lineStartPos_cons_succ]
      by_cases hc : c = '\n'
      · rw [if_pos hc, if_pos hc]; omega
      · rw [if_neg hc, if_neg hc]; omega

lemma lineStartPos_append_of_le {r : List Char} (t : List Char) {l : Nat}
    (h : l ≤ countNl r) : lineStartPos (r ++ t) l = lineStartPos r l := by
  induction r generalizing l with
  | nil =>
    simp only [countNl, Nat.le_zero] at h
    subst h
    rw [lineStartPos_zero, lineStartPos_zero]
  | cons c cs ih =>
    cases l with
    | zero => rw [lineStartPos_zero, lineStartPos_zero]
    | succ m =>
      simp only [countNl] at h
      rw [List.cons_append, lineStartPos_cons_succ, lineStartPos_cons_succ]
      by_cases hc : c = '\n'
      · rw [if_pos hc] at h ⊢
        rw [if_pos hc, ih (by omega)]
      · rw [if_neg hc] at h ⊢
        rw [if_neg hc, ih (by omega)]

lemma usub_some {a b : Nat} (h : b ≤ a) : usub a b = some (a - b) := by
  simp [usub, h]

lemma usub_eq_some {a b c : Nat} (h : usub a b = some c) : b ≤ a ∧ c = a - b := by
  by_cases hb : b ≤ a
  · rw [usub_some hb] at h
    exact ⟨hb, (Option.some.injEq _ _ ▸ h).symm⟩
  · simp [usub, hb] at h

lemma ropeRemove_some {r : List Char} {a b : Nat} (h1 : a ≤ b) (h2 : b ≤ r.length) :
    ropeRemove r a b = some (r.take a ++ r.drop b) := by
  simp [ropeRemove, h1, h2]

lemma ropeSlice_some {r : List Char} {a b : Nat} (h1 : a ≤ b) (h2 : b ≤ r.length) :
    ropeSlice r a b = some ((r.take b).drop a) := by
  simp [ropeSlice, h1, h2]

lemma ropeInsert_some {r : List Char} {i : Nat} (t : List Char) (h : i ≤ r.length) :
    ropeInsert r i t = some (r.take i ++ t ++ r.drop i) := by
  simp [ropeInsert, h]

lemma charToLine_some {r : List Char} {i : Nat} (h : i ≤ r.length) :
    charToLine r i = some (countNl (r.take i)) := by
  simp [charToLine, h]

lemma lineToChar_some {r : List Char} {l : Nat} (h : l ≤ lenLines r) :
    lineToChar r l = some (lineStartPos r l) := by
  simp [lineToChar, h]

lemma lineLenAt_some {r : List Char} {l : Nat} (h : l < lenLines r) :
    lineLenAt r l = some (lineStartPos r (l + 1) - lineStartPos r l) := by
  simp [lineLenAt, h]

/-- The prefix of an insertion-result before the insertion point. -/
lemma take_after_insert (r t : List Char) {c : Nat} (h : c ≤ r.length) :
    (r.take c ++ t ++ r.drop c).take c = r.take c := by
  have hlen : (r.take c).length = c := List.length_take_of_le h
  rw [List.append_assoc, List.take_append_of_le_length (by omega), List.take_take,
    Nat.min_self]

/-- The suffix of an insertion-result after the inserted text. -/
lemma insert_drop_suffix (r t : List Char) {c : Nat} (h : c ≤ r.length) :
    (r.take c ++ t ++ r.drop c).drop (c + t.length) = r.drop c := by
  have hlen : (r.take c).length = c := List.length_take_of_le h
  have hl : (r.take c ++ t).length = c + t.length := by simp [hlen]
  rw [List.drop_append_eq_append_drop, List.drop_of_length_le (by omega), hl]
  simp

/-- Removing the just-inserted span gives back the original list. -/
lemma insert_remove_round (r t : List Char) {c : Nat} (h : c ≤ r.length) :
    (r.take c ++ t ++ r.drop c).take c ++ (r.take c ++ t ++ r.drop c).drop (c + t.length) =
      r := by
  rw [take_after_insert r t h, insert_drop_suffix r t h, List.take_append_drop]

/-- Re-inserting the just-removed slice gives back the original list. -/
lemma remove_insert_round (r : List Char) {a b : Nat} (h1 : a ≤ b) (h2 : b ≤ r.length) :
    r.take a ++ (r.take b).drop a ++ r.drop b = r := by
  have : r.take a = (r.take b).take a := by
    rw [List.take_take, Nat.min_eq_left h1]
  rw [this, List.take_append_drop, List.take_append_drop]

lemma catRunLen_le_length (κ : Nat) (xs : List Char) : catRunLen κ xs ≤ xs.length := by
  induction xs with
  | nil => simp [catRunLen]
  | cons c cs ih =>
    simp only [catRunLen, List.length_cons]
    split <;> omega

lemma catRunLen_cons (κ : Nat) (c : Char) (cs : List Char) :
    catRunLen κ (c :: cs) = if category c = κ then catRunLen κ cs + 1 else 0 := rfl

lemma catRunLen_append_all {κ : Nat} {xs : List Char} (ys : List Char)
    (h : ∀ c ∈ xs, category c = κ) :
    catRunLen κ (xs ++ ys) = xs.length + catRunLen κ ys := by
  induction xs with
  | nil => simp
  | cons c cs ih =>
    have hc : category c = κ := h c (by simp)
    rw [List.cons_append, catRunLen_cons, if_pos hc, ih (fun d hd => h d (by simp [hd]))]
    simp only [List.length_cons]
    omega

lemma catRunLen_eq_zero {κ : Nat} {c : Char} (cs : List Char) (h : category c ≠ κ) :
    catRunLen κ (c :: cs) = 0 := by
  rw [catRunLen_cons, if_neg h]

/-! ### Lemmas about the backward scanning loops -/

lemma skipCatBack_succ (r : List Char) (κ p : Nat) :
    skipCatBack r κ (p + 1) =
      (r.get? p).bind (fun c => if category c = κ then skipCatBack r κ p else some (p + 1)) :=
  rfl

lemma wsBackCount_succ (r : List Char) (p : Nat) :
    wsBackCount r (p + 1) =
      (r.get? p).bind (fun c =>
        if category c = 2 then (wsBackCount r p).bind (fun qk => some (qk.1, qk.2 + 1))
        else some (p + 1, 0)) :=
  rfl

lemma skipCatBack_some {r : List Char} {p : Nat} (κ : Nat) (h : p ≤ r.length) :
    ∃ q, skipCatBack r κ p = some q ∧ q ≤ p := by
  induction p with
  | zero => exact ⟨0, rfl, Nat.le_refl 0⟩
  | succ n ih =>
    have hn : n < r.length := h
    obtain ⟨c, hc⟩ : ∃ c, r.get? n = some c := ⟨r.get ⟨n, hn⟩, List.get?_eq_get hn⟩
    rw [skipCatBack_succ, hc, Option.some_bind]
    by_cases hcat : category c = κ
    · obtain ⟨q, hq, hle⟩ := ih (Nat.le_of_lt hn)
      exact ⟨q, by rw [if_pos hcat]; exact hq, Nat.le_succ_of_le hle⟩
    · exact ⟨n + 1, by rw [if_neg hcat], Nat.le_refl _⟩

lemma skipCatBack_eq {r : List Char} {κ p q : Nat} (hq : q ≤ p) (hp : p ≤ r.length)
    (hrun : ∀ i, q ≤ i → i < p → ∃ c, r.get? i = some c ∧ category c = κ)
    (hmax : q = 0 ∨ ∃ c, r.get? (q - 1) = some c ∧ category c ≠ κ) :
    skipCatBack r κ p = some q := by
  induction p with
  | zero =>
    have : q = 0 := by omega
    subst this; rfl
  | succ n ih =>
    rw [skipCatBack_succ]
    rcases Nat.lt_or_ge n q with hlt | hge
    · have hq' : q = n + 1 := by omega
      subst hq'
      rcases hmax with h0 | ⟨c, hc, hcat⟩
      · omega
      · simp only [Nat.add_sub_cancel] at hc
        rw [hc, Option.some_bind, if_neg hcat]
    · obtain ⟨c, hc, hcat⟩ := hrun n hge (Nat.lt_succ_self n)
      have hrec := ih (by omega) (by omega) (fun i h1 h2 => hrun i h1 (by omega))
      rw [hc, Option.some_bind, if_pos hcat, hrec]

lemma wsBackCount_some {r : List Char} {p : Nat} (h : p ≤ r.length) :
    ∃ q k, wsBackCount r p = some (q, k) ∧ q + k = p := by
  induction p with
  | zero => exact ⟨0, 0, rfl, rfl⟩
  | succ n ih =>
    have hn : n < r.length := h
    obtain ⟨c, hc⟩ : ∃ c, r.get? n = some c := ⟨r.get ⟨n, hn⟩, List.get?_eq_get hn⟩
    rw [wsBackCount_succ, hc, Option.some_bind]
    by_cases hcat : category c = 2
    · obtain ⟨q, k, hq, hsum⟩ := ih (Nat.le_of_lt hn)
      exact ⟨q, k + 1, by rw [if_pos hcat, hq, Option.some_bind], by omega⟩
    · exact ⟨n + 1, 0, by rw [if_neg hcat], rfl⟩

lemma wsBackCount_eq {r : List Char} {p q : Nat} (hq : q ≤ p) (hp : p ≤ r.length)
    (hrun : ∀ i, q ≤ i → i < p → ∃ c, r.get? i = some c ∧ category c = 2)
    (hmax : q = 0 ∨ ∃ c, r.get? (q - 1) = some c ∧ category c ≠ 2) :
    wsBackCount r p = some (q, p - q) := by
  induction p with
  | zero =>
    have : q = 0 := by omega
    subst this; rfl
  | succ n ih =>
    rw [wsBackCount_succ]
    rcases Nat.lt_or_ge n q with hlt | hge
    · have hq' : q = n + 1 := by omega
      subst hq'
      rcases hmax with h0 | ⟨c, hc, hcat⟩
      · omega
      · simp only [Nat.add_sub_cancel] at hc
        rw [hc, Option.some_bind, if_neg hcat, Nat.sub_self]
    · obtain ⟨c, hc, hcat⟩ := hrun n hge (Nat.lt_succ_self n)
      have hrec := ih (by omega) (by omega) (fun i h1 h2 => hrun i h1 (by omega))
      rw [hc, Option.some_bind, if_pos hcat, hrec, Option.some_bind]
      have : n + 1 - q = (n - q) + 1 := by omega
      rw [this]

/-! ### Operation characterisation lemmas -/

lemma insert_length {r t : List Char} {c : Nat} (h : c ≤ r.length) :
    (r.take c ++ t ++ r.drop c).length = r.length + t.length := by
  simp only [List.length_append, List.length_take, List.length_drop]
  omega

lemma insert_core_spec (b : TextBuffer) (t : List Char) (h : b.cursor ≤ b.rope.length) :
    b.insert_core t = some
      { b with rope := b.rope.take b.cursor ++ t ++ b.rope.drop b.cursor,
               cursor := b.cursor + t.length,
               undo_stack := .insert b.cursor t :: b.undo_stack,
               redo_stack := [] } := by
  simp only [TextBuffer.insert_core, TextBuffer.record_action, ropeInsert_some t h,
    Option.some_bind]
  rfl

lemma undo_cons (b : TextBuffer) {a : Action} {rest : List Action}
    (h : b.undo_stack = a :: rest) {rc : List Char × Nat}
    (h2 : TextBuffer.apply_undo a b.rope = some rc) :
    b.undo = some ⟨rc.1, rc.2, none, rest, a :: b.redo_stack⟩ := by
  simp only [TextBuffer.undo, h, h2, Option.some_bind]
  rfl

lemma min_max_selection_range {b : TextBuffer} {a : Nat}
    (hanch : b.selection_anchor = some a) (hne : a ≠ b.cursor) :
    b.selection_range = some (min a b.cursor, max a b.cursor) := by
  rcases Nat.lt_or_ge a b.cursor with hlt | hge
  · simp only [TextBuffer.selection_range, hanch]
    rw [if_neg hne, if_pos hlt, Nat.min_eq_left (Nat.le_of_lt hlt),
      Nat.max_eq_right (Nat.le_of_lt hlt)]
  · have hgt : b.cursor < a := by omega
    simp only [TextBuffer.selection_range, hanch]
    rw [if_neg hne, if_neg (by omega), Nat.min_eq_right (Nat.le_of_lt hgt),
      Nat.max_eq_left (Nat.le_of_lt hgt)]

lemma has_selection_true {b : TextBuffer} {a : Nat}
    (hanch : b.selection_anchor = some a) (hne : a ≠ b.cursor) :
    b.has_selection = true := by
  simp only [TextBuffer.has_selection, hanch]
  simp [hne]

lemma delete_selection_spec (b : TextBuffer) {a : Nat}
    (hanch : b.selection_anchor = some a) (hne : a ≠ b.cursor)
    (ha : a ≤ b.rope.length) (hc : b.cursor ≤ b.rope.length) :
    b.delete_selection = some
      { b with rope := b.rope.take (min a b.cursor) ++ b.rope.drop (max a b.cursor),
               cursor := min a b.cursor,
               selection_anchor := none,
               undo_stack := .delete (min a b.cursor)
                 ((b.rope.take (max a b.cursor)).drop (min a b.cursor)) :: b.undo_stack,
               redo_stack := [] } := by
  have hmm : min a b.cursor ≤ max a b.cursor :=
    Nat.le_trans (Nat.min_le_left _ _) (Nat.le_max_left _ _)
  have hmax : max a b.cursor ≤ b.rope.length := Nat.max_le.mpr ⟨ha, hc⟩
  simp only [TextBuffer.delete_selection, min_max_selection_range hanch hne,
    TextBuffer.record_action, ropeSlice_some hmm hmax, Option.some_bind,
    ropeRemove_some hmm hmax]
  rfl

end FireNotes

namespace FireNotes

/-- C6: with no active selection, `insert_str` (or a single `insert`) followed
by `undo` restores exactly the prior rope content and the prior cursor
position. (The cursor-bounds hypothesis is part of the buffer's invariant,
established separately for all reachable states.) -/
theorem C6_insert_undo_roundtrip :
    (∀ (b : TextBuffer) (t : List Char), b.has_selection = false →
        b.cursor ≤ b.rope.length → t ≠ [] →
        ∃ b' b'', b.insert_str t = some b' ∧ b'.undo = some b'' ∧
          b''.rope = b.rope ∧ b''.cursor = b.cursor) ∧
    (∀ (b : TextBuffer) (ch : Char), b.has_selection = false →
        b.cursor ≤ b.rope.length →
        ∃ b' b'', b.insert ch = some b' ∧ b'.undo = some b'' ∧
          b''.rope = b.rope ∧ b''.cursor = b.cursor) := by
  have key : ∀ (b : TextBuffer) (t : List Char), b.cursor ≤ b.rope.length →
      ∃ b' b'', b.insert_core t = some b' ∧ b'.undo = some b'' ∧
        b''.rope = b.rope ∧ b''.cursor = b.cursor := by
    intro b t h
    have hic := insert_core_spec b t h
    have hrem : ropeRemove (b.rope.take b.cursor ++ t ++ b.rope.drop b.cursor) b.cursor
        (b.cursor + t.length) =
        some ((b.rope.take b.cursor ++ t ++ b.rope.drop b.cursor).take b.cursor ++
          (b.rope.take b.cursor ++ t ++ b.rope.drop b.cursor).drop (b.cursor + t.length)) :=
      ropeRemove_some (Nat.le_add_right _ _) (by rw [insert_length h]; omega)
    have hrm : TextBuffer.apply_undo (.insert b.cursor t)
        (b.rope.take b.cursor ++ t ++ b.rope.drop b.cursor) =
        some (b.rope, b.cursor) := by
      simp only [TextBuffer.apply_undo, hrem, Option.pure_def, Option.bind_eq_bind,
        Option.some_bind, Option.some.injEq, Prod.mk.injEq]
      constructor
      · exact insert_remove_round b.rope t h
      · trivial
    have hu := undo_cons { b with
      rope := b.rope.take b.cursor ++ t ++ b.rope.drop b.cursor,
      cursor := b.cursor + t.length,
      undo_stack := .insert b.cursor t :: b.undo_stack,
      redo_stack := [] } rfl hrm
    exact ⟨_, _, hic, hu, rfl, rfl⟩
  constructor
  · intro b t hsel h _
    obtain ⟨b', b'', h1, h2, h3, h4⟩ := key b t h
    refine ⟨b', b'', ?_, h2, h3, h4⟩
    unfold TextBuffer.insert_str
    rw [hsel]
    simpa using h1
  · intro b ch hsel h
    obtain ⟨b', b'', h1, h2, h3, h4⟩ := key b [ch] h
    refine ⟨b', b'', ?_, h2, h3, h4⟩
    unfold TextBuffer.insert
    rw [hsel]
    simpa using h1

/-- Witness for C6 at a concrete input. -/
theorem C6_insert_undo_roundtrip_witness :
    ∃ b' b'', (TextBuffer.from_str ['a', 'b']).insert_str ['x', 'y'] = some b' ∧
      b'.undo = some b'' ∧ b''.rope = ['a', 'b'] ∧ b''.cursor = 0 :=
  C6_insert_undo_roundtrip.1 (TextBuffer.from_str ['a', 'b']) ['x', 'y'] rfl
    (by decide) (by decide)

/-- Everything a successful `move_lines_up` call did, extracted from its
definition: either the bounds no-op, or all intermediate rope computations. -/
lemma move_lines_up_elim {b b' : TextBuffer} (h : b.move_lines_up = some b') :
    (∃ se0, b.get_line_range_to_move = some se0 ∧ se0.1 = 0 ∧ b' = b) ∨
    (∃ se0 se t1 bs be bt r1 r2 ma cur anc,
      b.get_line_range_to_move = some se0 ∧ se0.1 ≠ 0 ∧
      ({ b with rope := TextBuffer.ensure_trailing_newline b.rope } :
          TextBuffer).get_line_range_to_move = some se ∧
      lineToChar (TextBuffer.ensure_trailing_newline b.rope) (se0.1 - 1) = some t1 ∧
      lineToChar (TextBuffer.ensure_trailing_newline b.rope) se.1 = some bs ∧
      lineToChar (TextBuffer.ensure_trailing_newline b.rope) (se.2 + 1) = some be ∧
      ropeSlice (TextBuffer.ensure_trailing_newline b.rope) bs be = some bt ∧
      ropeRemove (TextBuffer.ensure_trailing_newline b.rope) bs be = some r1 ∧
      ropeInsert r1 t1 bt = some r2 ∧
      usub bs t1 = some ma ∧ usub b.cursor ma = some cur ∧
      ((b.selection_anchor = none ∧ anc = none) ∨
        (∃ a a2, b.selection_anchor = some a ∧ usub a ma = some a2 ∧ anc = some a2)) ∧
      b' = { b with rope := r2, cursor := cur, selection_anchor := anc }) := by
  unfold TextBuffer.move_lines_up at h
  obtain ⟨se0, hse0, h⟩ := Option.bind_eq_some.mp h
  by_cases h0 : se0.1 = 0
  · rw [if_pos h0] at h
    cases h
    exact Or.inl ⟨se0, hse0, h0, rfl⟩
  · rw [if_neg h0] at h
    obtain ⟨se, hse, h⟩ := Option.bind_eq_some.mp h
    obtain ⟨t1, ht1, h⟩ := Option.bind_eq_some.mp h
    obtain ⟨bs, hbs, h⟩ := Option.bind_eq_some.mp h
    obtain ⟨be, hbe, h⟩ := Option.bind_eq_some.mp h
    obtain ⟨bt, hbt, h⟩ := Option.bind_eq_some.mp h
    obtain ⟨r1, hr1, h⟩ := Option.bind_eq_some.mp h
    obtain ⟨r2, hr2, h⟩ := Option.bind_eq_some.mp h
    obtain ⟨ma, hma, h⟩ := Option.bind_eq_some.mp h
    obtain ⟨cur, hcur, h⟩ := Option.bind_eq_some.mp h
    rcases hA : b.selection_anchor with _ | a
    · rw [hA] at hse
      simp only [hA] at h
      cases h
      exact Or.inr ⟨se0, se, t1, bs, be, bt, r1, r2, ma, cur, none, hse0, h0, hse, ht1,
        hbs, hbe, hbt, hr1, hr2, hma, hcur, Or.inl ⟨rfl, rfl⟩, rfl⟩
    · rw [hA] at hse
      simp only [hA] at h
      obtain ⟨a2, ha2, h⟩ := Option.bind_eq_some.mp h
      cases h
      exact Or.inr ⟨se0, se, t1, bs, be, bt, r1, r2, ma, cur, some a2, hse0, h0, hse, ht1,
        hbs, hbe, hbt, hr1, hr2, hma, hcur, Or.inr ⟨a, a2, rfl, ha2, rfl⟩, rfl⟩

/-- Everything a successful `move_lines_down` call did, extracted from its
definition. -/
lemma move_lines_down_elim {b b' : TextBuffer} (h : b.move_lines_down = some b') :
    (∃ se0, b.get_line_range_to_move = some se0 ∧ se0.2 + 1 ≥ lenLines b.rope ∧ b' = b) ∨
    (∃ se0 se, b.get_line_range_to_move = some se0 ∧ se0.2 + 1 < lenLines b.rope ∧
      ({ b with rope := TextBuffer.ensure_trailing_newline b.rope } :
          TextBuffer).get_line_range_to_move = some se ∧
      se.2 + 1 ≥ lenLines (TextBuffer.ensure_trailing_newline b.rope) ∧
      b' = { b with rope := TextBuffer.ensure_trailing_newline b.rope }) ∨
    (∃ se0 se bs be bl bt ins r1 ni r2 mu anc,
      b.get_line_range_to_move = some se0 ∧ se0.2 + 1 < lenLines b.rope ∧
      ({ b with rope := TextBuffer.ensure_trailing_newline b.rope } :
          TextBuffer).get_line_range_to_move = some se ∧
      se.2 + 1 < lenLines (TextBuffer.ensure_trailing_newline b.rope) ∧
      lineToChar (TextBuffer.ensure_trailing_newline b.rope) se.1 = some bs ∧
      lineToChar (TextBuffer.ensure_trailing_newline b.rope) (se.2 + 1) = some be ∧
      usub be bs = some bl ∧
      ropeSlice (TextBuffer.ensure_trailing_newline b.rope) bs be = some bt ∧
      lineToChar (TextBuffer.ensure_trailing_newline b.rope) (se.2 + 1 + 1) = some ins ∧
      ropeRemove (TextBuffer.ensure_trailing_newline b.rope) bs be = some r1 ∧
      usub ins bl = some ni ∧
      ropeInsert r1 ni bt = some r2 ∧
      usub ni bs = some mu ∧
      ((b.selection_anchor = none ∧ anc = none) ∨
        (∃ a, b.selection_anchor = some a ∧ anc = some (a + mu))) ∧
      b' = { b with rope := r2, cursor := b.cursor + mu, selection_anchor := anc }) := by
  unfold TextBuffer.move_lines_down at h
  obtain ⟨se0, hse0, h⟩ := Option.bind_eq_some.mp h
  by_cases h0 : se0.2 + 1 ≥ lenLines b.rope
  · rw [if_pos h0] at h
    cases h
    exact Or.inl ⟨se0, hse0, h0, rfl⟩
  · rw [if_neg h0] at h
    obtain ⟨se, hse, h⟩ := Option.bind_eq_some.mp h
    by_cases h1 : se.2 + 1 ≥ lenLines (TextBuffer.ensure_trailing_newline b.rope)
    · rw [if_pos h1] at h
      cases h
      exact Or.inr (Or.inl ⟨se0, se, hse0, by omega, hse, h1, rfl⟩)
    · rw [if_neg h1] at h
      obtain ⟨bs, hbs, h⟩ := Option.bind_eq_some.mp h
      obtain ⟨be, hbe, h⟩ := Option.bind_eq_some.mp h
      obtain ⟨bl, hbl, h⟩ := Option.bind_eq_some.mp h
      obtain ⟨bt, hbt, h⟩ := Option.bind_eq_some.mp h
      obtain ⟨ins, hins, h⟩ := Option.bind_eq_some.mp h
      obtain ⟨r1, hr1, h⟩ := Option.bind_eq_some.mp h
      obtain ⟨ni, hni, h⟩ := Option.bind_eq_some.mp h
      obtain ⟨r2, hr2, h⟩ := Option.bind_eq_some.mp h
      obtain ⟨mu, hmu, h⟩ := Option.bind_eq_some.mp h
      rcases hA : b.selection_anchor with _ | a
      · rw [hA] at hse
        simp only [hA] at h
        cases h
        exact Or.inr (Or.inr ⟨se0, se, bs, be, bl, bt, ins, r1, ni, r2, mu, none, hse0,
          by omega, hse, by omega, hbs, hbe, hbl, hbt, hins, hr1, hni, hr2, hmu,
          Or.inl ⟨rfl, rfl⟩, rfl⟩)
      · rw [hA] at hse
        simp only [hA] at h
        cases h
        exact Or.inr (Or.inr ⟨se0, se, bs, be, bl, bt, ins, r1, ni, r2, mu, _, hse0,
          by omega, hse, by omega, hbs, hbe, hbl, hbt, hins, hr1, hni, hr2, hmu,
          Or.inr ⟨a, rfl, rfl⟩, rfl⟩)

/-- C9: `move_lines_up` and `move_lines_down` leave the undo stack and the
redo stack exactly unchanged — no action is recorded for the transposition or
for the newline they may append — so a subsequent `undo()` never reverts a
line transposition. -/
theorem C9_move_lines_preserve_stacks :
    ∀ (b b' : TextBuffer),
      (b.move_lines_up = some b' →
        b'.undo_stack = b.undo_stack ∧ b'.redo_stack = b.redo_stack) ∧
      (b.move_lines_down = some b' →
        b'.undo_stack = b.undo_stack ∧ b'.redo_stack = b.redo_stack) := by
  intro b b'
  constructor
  · intro h
    rcases move_lines_up_elim h with ⟨_, _, _, hb⟩ | ⟨_, _, _, _, _, _, _, _, _, _, _, _,
      _, _, _, _, _, _, _, _, _, _, _, hb⟩ <;> subst hb <;> exact ⟨rfl, rfl⟩
  · intro h
    rcases move_lines_down_elim h with ⟨_, _, _, hb⟩ | ⟨_, _, _, _, _, _, hb⟩ |
      ⟨_, _, _, _, _, _, _, _, _, _, _, _, _, _, _, _, _, _, _, _, _, _, _, _, _, _, hb⟩ <;>
      subst hb <;> exact ⟨rfl, rfl⟩

/-- Witness for C9 at a concrete input where both transpositions really move
a line. -/
theorem C9_move_lines_preserve_stacks_witness :
    ((⟨['a', '\n', 'b'], 2, none, [], []⟩ : TextBuffer).move_lines_up =
        some ⟨['b', '\n', 'a', '\n'], 0, none, [], []⟩ →
      (⟨['b', '\n', 'a', '\n'], 0, none, [], []⟩ : TextBuffer).undo_stack =
          (⟨['a', '\n', 'b'], 2, none, [], []⟩ : TextBuffer).undo_stack ∧
        (⟨['b', '\n', 'a', '\n'], 0, none, [], []⟩ : TextBuffer).redo_stack =
          (⟨['a', '\n', 'b'], 2, none, [], []⟩ : TextBuffer).redo_stack) ∧
    (⟨['a', '\n', 'b'], 2, none, [], []⟩ : TextBuffer).move_lines_up =
      some ⟨['b', '\n', 'a', '\n'], 0, none, [], []⟩ :=
  ⟨(C9_move_lines_preserve_stacks ⟨['a', '\n', 'b'], 2, none, [], []⟩
      ⟨['b', '\n', 'a', '\n'], 0, none, [], []⟩).1, by decide⟩

lemma take_append_left_of_length {l1 l2 : List Char} {n : Nat} (h : l1.length = n) :
    (l1 ++ l2).take n = l1 := by
  subst h
  exact List.take_left _ _

lemma drop_append_left_of_length {l1 l2 : List Char} {n : Nat} (h : l1.length = n) :
    (l1 ++ l2).drop n = l2 := by
  subst h
  exact List.drop_left _ _

/-- Fetch a char of the middle segment of an append. -/
lemma get?_append_seg (Pre Seg rest : List Char) (i : Nat) (h1 : Pre.length ≤ i)
    (h2 : i < Pre.length + Seg.length) :
    ∃ c, (Pre ++ (Seg ++ rest)).get? i = some c ∧ c ∈ Seg := by
  have hi : i - Pre.length < Seg.length := by omega
  refine ⟨Seg.get ⟨i - Pre.length, hi⟩, ?_, List.get_mem _ _ _⟩
  rw [List.get?_append_right h1, List.get?_append hi, List.get?_eq_get hi]

lemma sel_update_rope (b : TextBuffer) (s : Bool) : (b.sel_update s).rope = b.rope := by
  unfold TextBuffer.sel_update TextBuffer.start_selection TextBuffer.clear_selection
  cases s <;> simp only [if_pos, if_neg, Bool.false_eq_true, if_false, if_true] <;> split <;> rfl

lemma sel_update_cursor (b : TextBuffer) (s : Bool) : (b.sel_update s).cursor = b.cursor := by
  unfold TextBuffer.sel_update TextBuffer.start_selection TextBuffer.clear_selection
  cases s <;> simp only [if_pos, if_neg, Bool.false_eq_true, if_false, if_true] <;> split <;> rfl

lemma sel_update_undo_stack (b : TextBuffer) (s : Bool) :
    (b.sel_update s).undo_stack = b.undo_stack := by
  unfold TextBuffer.sel_update TextBuffer.start_selection TextBuffer.clear_selection
  cases s <;> simp only [if_pos, if_neg, Bool.false_eq_true, if_false, if_true] <;> split <;> rfl

lemma sel_update_redo_stack (b : TextBuffer) (s : Bool) :
    (b.sel_update s).redo_stack = b.redo_stack := by
  unfold TextBuffer.sel_update TextBuffer.start_selection TextBuffer.clear_selection
  cases s <;> simp only [if_pos, if_neg, Bool.false_eq_true, if_false, if_true] <;> split <;> rfl

/-- The word-left loops on a rope split as
`before ++ category-run ++ whitespace-run ++ after` with the cursor at the
end of the whitespace run: the cursor lands at the start of the category
run. -/
lemma move_word_left_runs (b : TextBuffer) (selecting : Bool) (A R W B : List Char)
    (κ : Nat) (hr : b.rope = A ++ (R ++ (W ++ B)))
    (hc : b.cursor = A.length + R.length + W.length)
    (hW : ∀ c ∈ W, category c = 2)
    (hR : ∀ c ∈ R, category c = κ) (hκ : κ ≠ 2) (hRne : R ≠ [])
    (hA : ∀ c, A.getLast? = some c → category c ≠ κ) :
    b.move_word_left selecting = some { b.sel_update selecting with cursor := A.length } := by
  have hRlen : 0 < R.length := List.length_pos.mpr hRne
  have hlenAR : (A ++ R).length = A.length + R.length := List.length_append _ _
  have hlen : (A ++ (R ++ (W ++ B))).length =
      A.length + R.length + (W.length + B.length) := by
    simp [List.length_append]
    omega
  have hr2 : A ++ (R ++ (W ++ B)) = A ++ R ++ (W ++ B) := by
    rw [List.append_assoc]
  have hskipW : skipCatBack (A ++ (R ++ (W ++ B))) 2 (A.length + R.length + W.length) =
      some (A.length + R.length) := by
    apply skipCatBack_eq (by omega) (by omega)
    · intro i hi1 hi2
      obtain ⟨c, hget, hmem⟩ := get?_append_seg (A ++ R) W B i (by omega) (by omega)
      exact ⟨c, by rw [hr2]; exact hget, hW c hmem⟩
    · right
      obtain ⟨c, hget, hmem⟩ := get?_append_seg A R (W ++ B)
        (A.length + (R.length - 1)) (by omega) (by omega)
      refine ⟨c, ?_, by rw [hR c hmem]; exact hκ⟩
      rw [show A.length + R.length - 1 = A.length + (R.length - 1) from by omega]
      exact hget
  obtain ⟨cl, hcl, hclR⟩ := get?_append_seg A R (W ++ B)
    (A.length + (R.length - 1)) (by omega) (by omega)
  have hclcat : category cl = κ := hR cl hclR
  have hskipR : skipCatBack (A ++ (R ++ (W ++ B))) κ (A.length + R.length) =
      some A.length := by
    apply skipCatBack_eq (by omega) (by omega)
    · intro i hi1 hi2
      obtain ⟨c, hget, hmem⟩ := get?_append_seg A R (W ++ B) i (by omega) (by omega)
      exact ⟨c, hget, hR c hmem⟩
    · rcases hAcase : A with _ | ⟨a0, A0⟩
      · left
        rfl
      · right
        have hAne : A ≠ [] := by rw [hAcase]; simp
        have hApos : 0 < A.length := List.length_pos.mpr hAne
        have hlt : A.length - 1 < A.length := by omega
        refine ⟨A.getLast hAne, ?_, hA _ (List.getLast?_eq_getLast A hAne)⟩
        rw [← hAcase, List.get?_append hlt, List.get?_eq_get hlt]
        congr 1
        exact (List.getLast_eq_get A hAne).symm
  have hcur0 : ¬ (b.sel_update selecting).cursor = 0 := by
    rw [sel_update_cursor, hc]
    omega
  have hcharcl : ropeChar (A ++ (R ++ (W ++ B))) (A.length + R.length - 1) = some cl := by
    rw [ropeChar, show A.length + R.length - 1 = A.length + (R.length - 1) from by omega]
    exact hcl
  unfold TextBuffer.move_word_left
  rw [if_neg hcur0, sel_update_rope, sel_update_cursor, hr, hc]
  simp only [hskipW, Option.bind_eq_bind, Option.some_bind]
  rw [if_pos (show A.length + R.length > 0 from by omega)]
  simp only [hcharcl, Option.bind_eq_bind, Option.some_bind, hclcat, hskipR,
    Option.pure_def]
  rw [sel_update_rope, hr]

/-- The word-right loops on a rope split as
`before ++ whitespace-run ++ category-run ++ after` with the cursor at the
start of the whitespace run: the cursor lands at the end of the category
run. -/
lemma move_word_right_runs (b : TextBuffer) (selecting : Bool) (A W R B : List Char)
    (κ : Nat) (hr : b.rope = A ++ (W ++ (R ++ B)))
    (hc : b.cursor = A.length)
    (hW : ∀ c ∈ W, category c = 2)
    (hR : ∀ c ∈ R, category c = κ) (hκ : κ ≠ 2) (hRne : R ≠ [])
    (hB : ∀ c, B.head? = some c → category c ≠ κ) :
    b.move_word_right selecting =
      some { b.sel_update selecting with cursor := A.length + W.length + R.length } := by
  obtain ⟨rh, rt, hRc⟩ := List.exists_cons_of_ne_nil hRne
  have hrhcat : category rh = κ := hR rh (by rw [hRc]; simp)
  have hRlen : 0 < R.length := List.length_pos.mpr hRne
  have hlen : (A ++ (W ++ (R ++ B))).length =
      A.length + (W.length + (R.length + B.length)) := by
    simp [List.length_append]
  have hdropA : (A ++ (W ++ (R ++ B))).drop A.length = W ++ (R ++ B) :=
    drop_append_left_of_length rfl
  have hrunW : catRunLen 2 (W ++ (R ++ B)) = W.length := by
    rw [catRunLen_append_all _ hW]
    have h0 : catRunLen 2 (R ++ B) = 0 := by
      rw [hRc, List.cons_append]
      exact catRunLen_eq_zero _ (by rw [hrhcat]; exact hκ)
    rw [h0]
    omega
  have hdropAW : (A ++ (W ++ (R ++ B))).drop (A.length + W.length) = R ++ B := by
    rw [← List.append_assoc]
    exact drop_append_left_of_length (by rw [List.length_append])
  have hrunR : catRunLen κ (R ++ B) = R.length := by
    rw [catRunLen_append_all _ hR]
    have h0 : catRunLen κ B = 0 := by
      rcases hBcase : B with _ | ⟨bh, bt⟩
      · rfl
      · exact catRunLen_eq_zero _ (hB bh (by simp [hBcase]))
    rw [h0]
    omega
  have hgetrh : ropeChar (A ++ (W ++ (R ++ B))) (A.length + W.length) = some rh := by
    rw [ropeChar, show A ++ (W ++ (R ++ B)) = (A ++ W) ++ (R ++ B) from
      (List.append_assoc A W (R ++ B)).symm,
      List.get?_append_right (le_of_eq (List.length_append A W)),
      List.length_append, Nat.sub_self, hRc]
    rfl
  have hcurlt : ¬ (b.sel_update selecting).cursor ≥ (b.sel_update selecting).rope.length := by
    rw [sel_update_cursor, sel_update_rope, hc, hr, hlen]
    omega
  unfold TextBuffer.move_word_right
  rw [if_neg hcurlt, sel_update_rope, sel_update_cursor, hr, hc, hdropA, hrunW]
  rw [if_pos (show A.length + W.length < (A ++ (W ++ (R ++ B))).length from by
    rw [hlen]; omega)]
  simp only [hgetrh, Option.bind_eq_bind, Option.some_bind, hrhcat, hdropAW, hrunR,
    Option.pure_def]
  rw [sel_update_rope, hr]

/-- C4: on `"Line 1\nLine 2\nLine 3"` with the cursor anywhere on line 1 and
no selection, `move_lines_up` produces `"Line 2\nLine 1\nLine 3\n"` and leaves
the cursor on line 0. -/
theorem C4_move_lines_up_scenario (c : Nat)
    (hline : charToLine ("Line 1\nLine 2\nLine 3".toList) c = some 1) :
    ((⟨"Line 1\nLine 2\nLine 3".toList, c, none, [], []⟩ : TextBuffer).move_lines_up).map
        TextBuffer.rope = some ("Line 2\nLine 1\nLine 3\n".toList) ∧
      ((⟨"Line 1\nLine 2\nLine 3".toList, c, none, [], []⟩ : TextBuffer).move_lines_up).bind
        (fun b' => charToLine b'.rope b'.cursor) = some 0 := by
  have hc : c ≤ 20 := by
    by_cases hle : c ≤ ("Line 1\nLine 2\nLine 3".toList).length
    · simpa using hle
    · rw [charToLine, if_neg hle] at hline
      cases hline
  interval_cases c <;> revert hline <;> decide

/-- Witness for C4 at cursor offset 7 (start of line 1). -/
theorem C4_move_lines_up_scenario_witness :
    ((⟨"Line 1\nLine 2\nLine 3".toList, 7, none, [], []⟩ : TextBuffer).move_lines_up).map
        TextBuffer.rope = some ("Line 2\nLine 1\nLine 3\n".toList) ∧
      ((⟨"Line 1\nLine 2\nLine 3".toList, 7, none, [], []⟩ : TextBuffer).move_lines_up).bind
        (fun b' => charToLine b'.rope b'.cursor) = some 0 :=
  C4_move_lines_up_scenario 7 (by decide)

/-- C8: on `"word1 word2  word3"` three `move_word_right` from offset 0 reach
offset 18 and three `move_word_left` return to offset 0; in general word-left
skips the whitespace run before the cursor and then exactly one maximal run
of the resulting category, and word-right is the mirror. -/
theorem C8_word_navigation :
    ((run ⟨"word1 word2  word3".toList, 0, none, [], []⟩
        [.move_word_right false, .move_word_right false, .move_word_right false]).map
        TextBuffer.cursor = some 18 ∧
      (run ⟨"word1 word2  word3".toList, 0, none, [], []⟩
        [.move_word_right false, .move_word_right false, .move_word_right false,
          .move_word_left false, .move_word_left false, .move_word_left false]).map
        TextBuffer.cursor = some 0) ∧
    (∀ (b : TextBuffer) (selecting : Bool) (A R W B : List Char) (κ : Nat),
      b.rope = A ++ (R ++ (W ++ B)) → b.cursor = A.length + R.length + W.length →
      (∀ c ∈ W, category c = 2) → (∀ c ∈ R, category c = κ) → κ ≠ 2 → R ≠ [] →
      (∀ c, A.getLast? = some c → category c ≠ κ) →
      b.move_word_left selecting =
        some { b.sel_update selecting with cursor := A.length }) ∧
    (∀ (b : TextBuffer) (selecting : Bool) (A W R B : List Char) (κ : Nat),
      b.rope = A ++ (W ++ (R ++ B)) → b.cursor = A.length →
      (∀ c ∈ W, category c = 2) → (∀ c ∈ R, category c = κ) → κ ≠ 2 → R ≠ [] →
      (∀ c, B.head? = some c → category c ≠ κ) →
      b.move_word_right selecting =
        some { b.sel_update selecting with cursor := A.length + W.length + R.length }) := by
  refine ⟨⟨by decide, by decide⟩, ?_, ?_⟩
  · intro b selecting A R W B κ h1 h2 h3 h4 h5 h6 h7
    exact move_word_left_runs b selecting A R W B κ h1 h2 h3 h4 h5 h6 h7
  · intro b selecting A W R B κ h1 h2 h3 h4 h5 h6 h7
    exact move_word_right_runs b selecting A W R B κ h1 h2 h3 h4 h5 h6 h7

/-- Witness for C8's general clauses at a concrete input: word-left on
`"ab cd"` from the end lands at offset 3. -/
theorem C8_word_navigation_witness :
    (⟨"ab cd".toList, 5, none, [], []⟩ : TextBuffer).move_word_left false =
      some ⟨"ab cd".toList, 3, none, [], []⟩ := by
  have h := C8_word_navigation.2.1 ⟨"ab cd".toList, 5, none, [], []⟩ false
    ("ab ".toList) ("cd".toList) [] [] 1 (by decide) (by decide) (by decide)
    (by decide) (by decide) (by decide)
    (fun c hc => by
      rw [show (("ab ".toList).getLast? : Option Char) = some ' ' from by decide] at hc
      injection hc with h2
      subst h2
      decide)
  exact h

/-! ### Inversion lemmas for the rope primitives -/

lemma ropeRemove_eq_some {r : List Char} {a b : Nat} {r' : List Char}
    (h : ropeRemove r a b = some r') :
    a ≤ b ∧ b ≤ r.length ∧ r' = r.take a ++ r.drop b := by
  unfold ropeRemove at h
  split at h
  · cases h
    exact ⟨by omega, by omega, rfl⟩
  · cases h

lemma ropeSlice_eq_some {r : List Char} {a b : Nat} {t : List Char}
    (h : ropeSlice r a b = some t) :
    a ≤ b ∧ b ≤ r.length ∧ t = (r.take b).drop a := by
  unfold ropeSlice at h
  split at h
  · cases h
    exact ⟨by omega, by omega, rfl⟩
  · cases h

lemma ropeInsert_eq_some {r : List Char} {i : Nat} {t r' : List Char}
    (h : ropeInsert r i t = some r') :
    i ≤ r.length ∧ r' = r.take i ++ t ++ r.drop i := by
  unfold ropeInsert at h
  split at h
  · cases h
    exact ⟨by omega, rfl⟩
  · cases h

lemma lineToChar_eq_some {r : List Char} {l x : Nat} (h : lineToChar r l = some x) :
    l ≤ lenLines r ∧ x = lineStartPos r l := by
  unfold lineToChar at h
  split at h
  · cases h
    exact ⟨by omega, rfl⟩
  · cases h

lemma charToLine_eq_some {r : List Char} {i x : Nat} (h : charToLine r i = some x) :
    i ≤ r.length ∧ x = countNl (r.take i) := by
  unfold charToLine at h
  split at h
  · cases h
    exact ⟨by omega, rfl⟩
  · cases h

lemma lineLenAt_eq_some {r : List Char} {l x : Nat} (h : lineLenAt r l = some x) :
    l < lenLines r ∧ x = lineStartPos r (l + 1) - lineStartPos r l := by
  unfold lineLenAt at h
  split at h
  · cases h
    exact ⟨by omega, rfl⟩
  · cases h

lemma ensure_eq_of_last_nl {r : List Char} (h : r.getLast? = some '\n') :
    TextBuffer.ensure_trailing_newline r = r := by
  have hne : r ≠ [] := by
    intro hnil
    rw [hnil] at h
    cases h
  have hpos : 0 < r.length := List.length_pos.mpr hne
  have hgd : r.getD (r.length - 1) ' ' = '\n' := by
    have : r.getD (r.length - 1) ' ' = (r.get? (r.length - 1)).getD ' ' := rfl
    rw [this, ← List.getLast?_eq_get?, h]
    rfl
  unfold TextBuffer.ensure_trailing_newline
  rw [if_pos hpos, if_neg (by rw [hgd]; simp)]

lemma ensure_eq_append {r : List Char} (h1 : r ≠ []) (h2 : r.getLast? ≠ some '\n') :
    TextBuffer.ensure_trailing_newline r = r ++ ['\n'] := by
  have hpos : 0 < r.length := List.length_pos.mpr h1
  have hlt : r.length - 1 < r.length := by omega
  obtain ⟨c, hc⟩ : ∃ c, r.get? (r.length - 1) = some c :=
    ⟨r.get ⟨r.length - 1, hlt⟩, List.get?_eq_get hlt⟩
  have hcne : c ≠ '\n' := by
    intro hceq
    apply h2
    rw [List.getLast?_eq_get?, hc, hceq]
  have hgd : r.getD (r.length - 1) ' ' = c := by
    have : r.getD (r.length - 1) ' ' = (r.get? (r.length - 1)).getD ' ' := rfl
    rw [this, hc]
    rfl
  unfold TextBuffer.ensure_trailing_newline
  rw [if_pos hpos, if_pos (by rw [hgd]; simpa using hcne)]

/-- C3 counterexample: on buffer `"a\nb\nc"` (no trailing newline, 3 lines)
with the cursor on line 1, the moved line range is `{1}` and does not include
the last line 2; the claim then requires that no newline be appended, but
`move_lines_up` produces `"b\na\nc\n"` — one char longer, with a newline
appended. -/
theorem C3_counterexample :
    (⟨"a\nb\nc".toList, 2, none, [], []⟩ : TextBuffer).get_line_range_to_move =
        some (1, 1) ∧
      lenLines ("a\nb\nc".toList) = 3 ∧
      ("a\nb\nc".toList).getLast? ≠ some '\n' ∧
      (⟨"a\nb\nc".toList, 2, none, [], []⟩ : TextBuffer).move_lines_up =
        some ⟨"b\na\nc\n".toList, 0, none, [], []⟩ ∧
      ("b\na\nc\n".toList).length = ("a\nb\nc".toList).length + 1 := by
  decide

/-- The remove-then-reinsert-earlier step of `move_lines_up`: length is
preserved and everything before the insertion point and after the removed
block is unchanged. -/
lemma swap_frame_up {L bt r1x r2 : List Char} {t1 bs be : Nat}
    (hbt : ropeSlice L bs be = some bt)
    (hr1 : ropeRemove L bs be = some r1x)
    (hr2 : ropeInsert r1x t1 bt = some r2)
    (ht1bs : t1 ≤ bs) :
    r2.length = L.length ∧ bs ≤ be ∧ be ≤ L.length ∧
    r2.take t1 = L.take t1 ∧ r2.drop be = L.drop be ∧
    r2 = L.take t1 ++ (L.take be).drop bs ++ ((L.take bs).drop t1 ++ L.drop be) := by
  obtain ⟨hbsbe, hbelen, hbt_eq⟩ := ropeSlice_eq_some hbt
  obtain ⟨-, -, hr1_eq⟩ := ropeRemove_eq_some hr1
  obtain ⟨ht1len, hr2_eq⟩ := ropeInsert_eq_some hr2
  have hlt : (L.take bs).length = bs := List.length_take_of_le (by omega)
  have hlbt : bt.length = be - bs := by
    rw [hbt_eq]
    simp only [List.length_drop, List.length_take]
    omega
  have hr1len : r1x.length = bs + (L.length - be) := by
    rw [hr1_eq]
    simp only [List.length_append, List.length_take, List.length_drop]
    omega
  have htake : r1x.take t1 = L.take t1 := by
    rw [hr1_eq, List.take_append_of_le_length (by omega), List.take_take,
      Nat.min_eq_left ht1bs]
  have hdrop : r1x.drop t1 = (L.take bs).drop t1 ++ L.drop be := by
    rw [hr1_eq, List.drop_append_eq_append_drop, hlt,
      show t1 - bs = 0 from by omega, List.drop_zero]
  have hfull : r2 = L.take t1 ++ (L.take be).drop bs ++
      ((L.take bs).drop t1 ++ L.drop be) := by
    rw [hr2_eq, htake, hdrop, hbt_eq]
  refine ⟨?_, hbsbe, hbelen, ?_, ?_, hfull⟩
  · rw [hr2_eq, insert_length (by omega)]
    omega
  · rw [hfull]
    have h1 : t1 ≤ (L.take t1).length := by
      rw [List.length_take_of_le (by omega)]
    rw [List.take_append_of_le_length
        (by simp only [List.length_append, List.length_take, List.length_drop]; omega),
      List.take_append_of_le_length h1, List.take_take, Nat.min_self]
  · have hlen3 : (L.take t1 ++ (L.take be).drop bs ++ (L.take bs).drop t1).length = be := by
      simp only [List.length_append, List.length_take, List.length_drop]
      omega
    rw [hfull, show L.take t1 ++ (L.take be).drop bs ++ ((L.take bs).drop t1 ++ L.drop be) =
      (L.take t1 ++ (L.take be).drop bs ++ (L.take bs).drop t1) ++ L.drop be from by
        simp [List.append_assoc]]
    exact drop_append_left_of_length hlen3

/-- The remove-then-reinsert-later step of `move_lines_down`: length is
preserved and everything before the removed block and after the insertion
point is unchanged. -/
lemma swap_frame_down {L bt r1x r2 : List Char} {bs be ins ni : Nat}
    (hbt : ropeSlice L bs be = some bt)
    (hr1 : ropeRemove L bs be = some r1x)
    (hbeins : be ≤ ins) (hinslen : ins ≤ L.length)
    (hni : ni = ins - (be - bs))
    (hr2 : ropeInsert r1x ni bt = some r2) :
    r2.length = L.length ∧ bs ≤ be ∧
    r2.take bs = L.take bs ∧ r2.drop ins = L.drop ins ∧
    r2 = L.take bs ++ ((L.drop be).take (ins - be) ++
      ((L.take be).drop bs ++ L.drop ins)) := by
  obtain ⟨hbsbe, hbelen, hbt_eq⟩ := ropeSlice_eq_some hbt
  obtain ⟨-, -, hr1_eq⟩ := ropeRemove_eq_some hr1
  obtain ⟨hnilen, hr2_eq⟩ := ropeInsert_eq_some hr2
  have hbsni : bs ≤ ni := by omega
  have hlt : (L.take bs).length = bs := List.length_take_of_le (by omega)
  have hlbt : bt.length = be - bs := by
    rw [hbt_eq]
    simp only [List.length_drop, List.length_take]
    omega
  have htake : r1x.take ni = L.take bs ++ (L.drop be).take (ins - be) := by
    rw [hr1_eq, List.take_append_eq_append_take, hlt,
      show (L.take bs).take ni = L.take bs from by
        rw [List.take_take, Nat.min_eq_right hbsni],
      show ni - bs = ins - be from by omega]
  have hdrop : r1x.drop ni = L.drop ins := by
    rw [hr1_eq, List.drop_append_eq_append_drop, hlt,
      List.drop_of_length_le (by rw [hlt]; omega), List.nil_append,
      List.drop_drop, show be + (ni - bs) = ins from by omega]
  have hfull : r2 = L.take bs ++ ((L.drop be).take (ins - be) ++
      ((L.take be).drop bs ++ L.drop ins)) := by
    rw [hr2_eq, htake, hdrop, hbt_eq]
    simp [List.append_assoc]
  refine ⟨?_, hbsbe, ?_, ?_, hfull⟩
  · rw [hr2_eq, insert_length (by omega)]
    have : r1x.length = bs + (L.length - be) := by
      rw [hr1_eq]
      simp only [List.length_append, List.length_take, List.length_drop]
      omega
    omega
  · rw [hfull, List.take_append_of_le_length (by rw [hlt]), List.take_take, Nat.min_self]
  · have hlen3 : (L.take bs ++ ((L.drop be).take (ins - be) ++ (L.take be).drop bs)).length =
        ins := by
      simp [List.length_append, List.length_take, List.length_drop]
      omega
    rw [hfull, show L.take bs ++ ((L.drop be).take (ins - be) ++
        ((L.take be).drop bs ++ L.drop ins)) =
        (L.take bs ++ ((L.drop be).take (ins - be) ++ (L.take be).drop bs)) ++ L.drop ins
        from by simp [List.append_assoc]]
    exact drop_append_left_of_length hlen3

/-- C3 (amended): during `move_lines_up`/`move_lines_down` calls that pass
their bounds guards, a trailing newline is appended exactly when the buffer
is nonempty and lacks one — regardless of whether the moved line range
touches the last line (the counterexample forces dropping "only when the
range touches the last line" and "appends no newline") — and, relative to
this newline-repaired rope, the result is exactly the transposition of the
two adjacent line blocks at the line-boundary character indices computed by
`line_to_char` from the recomputed line range: in particular the characters
before the earlier boundary and after the later boundary are unchanged and
the length is unchanged. -/
theorem C3_amended_trailing_newline :
    (∀ (b b' : TextBuffer) (se0 : Nat × Nat),
      b.get_line_range_to_move = some se0 → se0.1 ≠ 0 →
      b.move_lines_up = some b' →
      b'.rope.length = (TextBuffer.ensure_trailing_newline b.rope).length ∧
      ∃ se t1 bs be,
        ({ b with rope := TextBuffer.ensure_trailing_newline b.rope } :
            TextBuffer).get_line_range_to_move = some se ∧
        lineToChar (TextBuffer.ensure_trailing_newline b.rope) (se0.1 - 1) = some t1 ∧
        lineToChar (TextBuffer.ensure_trailing_newline b.rope) se.1 = some bs ∧
        lineToChar (TextBuffer.ensure_trailing_newline b.rope) (se.2 + 1) = some be ∧
        t1 ≤ bs ∧ bs ≤ be ∧
        be ≤ (TextBuffer.ensure_trailing_newline b.rope).length ∧
        b'.rope =
          (TextBuffer.ensure_trailing_newline b.rope).take t1 ++
            ((TextBuffer.ensure_trailing_newline b.rope).take be).drop bs ++
            (((TextBuffer.ensure_trailing_newline b.rope).take bs).drop t1 ++
              (TextBuffer.ensure_trailing_newline b.rope).drop be) ∧
        b'.rope.take t1 = (TextBuffer.ensure_trailing_newline b.rope).take t1 ∧
        b'.rope.drop be = (TextBuffer.ensure_trailing_newline b.rope).drop be) ∧
    (∀ (b b' : TextBuffer) (se0 se : Nat × Nat),
      b.get_line_range_to_move = some se0 → se0.2 + 1 < lenLines b.rope →
      ({ b with rope := TextBuffer.ensure_trailing_newline b.rope } :
          TextBuffer).get_line_range_to_move = some se →
      se.2 + 1 < lenLines (TextBuffer.ensure_trailing_newline b.rope) →
      b.move_lines_down = some b' →
      b'.rope.length = (TextBuffer.ensure_trailing_newline b.rope).length ∧
      ∃ bs be ins,
        lineToChar (TextBuffer.ensure_trailing_newline b.rope) se.1 = some bs ∧
        lineToChar (TextBuffer.ensure_trailing_newline b.rope) (se.2 + 1) = some be ∧
        lineToChar (TextBuffer.ensure_trailing_newline b.rope) (se.2 + 1 + 1) = some ins ∧
        bs ≤ be ∧ be ≤ ins ∧
        ins ≤ (TextBuffer.ensure_trailing_newline b.rope).length ∧
        b'.rope =
          (TextBuffer.ensure_trailing_newline b.rope).take bs ++
            (((TextBuffer.ensure_trailing_newline b.rope).drop be).take (ins - be) ++
              (((TextBuffer.ensure_trailing_newline b.rope).take be).drop bs ++
                (TextBuffer.ensure_trailing_newline b.rope).drop ins)) ∧
        b'.rope.take bs = (TextBuffer.ensure_trailing_newline b.rope).take bs ∧
        b'.rope.drop ins = (TextBuffer.ensure_trailing_newline b.rope).drop ins) ∧
    (∀ r : List Char,
      (r.getLast? = some '\n' → TextBuffer.ensure_trailing_newline r = r) ∧
      (r ≠ [] → r.getLast? ≠ some '\n' →
        TextBuffer.ensure_trailing_newline r = r ++ ['\n'])) := by
  refine ⟨?_, ?_, fun r => ⟨ensure_eq_of_last_nl, ensure_eq_append⟩⟩
  · intro b b' se0 hglr hne0 hmv
    rcases move_lines_up_elim hmv with ⟨se0', hglr', h0', -⟩ |
      ⟨se0', se, t1, bs, be, bt, r1x, r2, ma, cur, anc, hglr', h0', hse, ht1, hbs, hbe,
        hbt, hr1, hr2, hma, hcur, hanc, hb'⟩
    · rw [hglr] at hglr'
      injection hglr' with he
      subst he
      exact absurd h0' hne0
    · rw [hglr] at hglr'
      injection hglr' with he
      subst he
      obtain ⟨ht1bs, -⟩ := usub_eq_some hma
      obtain ⟨hlen, hbsbe, hbelen, hpre, hsuf, hfull⟩ := swap_frame_up hbt hr1 hr2 ht1bs
      subst hb'
      exact ⟨hlen, se, t1, bs, be, hse, ht1, hbs, hbe, ht1bs, hbsbe, hbelen, hfull,
        hpre, hsuf⟩
  · intro b b' se0 se hglr h0 hglr1 h1 hmv
    rcases move_lines_down_elim hmv with ⟨se0', hglr', h0', -⟩ |
      ⟨se0', se', hglr', -, hse', h1', -⟩ |
      ⟨se0', se', bs, be, bl, bt, ins, r1x, ni, r2, mu, anc, hglr', h0', hse', h1', hbs,
        hbe, hbl, hbt, hins, hr1, hni, hr2, hmu, hanc, hb'⟩
    · rw [hglr] at hglr'
      injection hglr' with he
      subst he
      omega
    · rw [hglr1] at hse'
      injection hse' with he
      subst he
      omega
    · rw [hglr1] at hse'
      injection hse' with he
      subst he
      obtain ⟨-, hbe_eq⟩ := lineToChar_eq_some hbe
      obtain ⟨hinslines, hins_eq⟩ := lineToChar_eq_some hins
      obtain ⟨hblle, hbl_eq⟩ := usub_eq_some hbl
      obtain ⟨hblins, hni_eq⟩ := usub_eq_some hni
      have hbeins : be ≤ ins := by
        rw [hbe_eq, hins_eq]
        exact lineStartPos_mono _ (by omega)
      have hinslen : ins ≤ (TextBuffer.ensure_trailing_newline b.rope).length := by
        rw [hins_eq]
        exact lineStartPos_le_length _ _
      obtain ⟨hlen, hbsbe, hpre, hsuf, hfull⟩ :=
        swap_frame_down hbt hr1 hbeins hinslen (by omega) hr2
      subst hb'
      exact ⟨hlen, bs, be, ins, hbs, hbe, hins, hbsbe, hbeins, hinslen, hfull, hpre, hsuf⟩

/-- `insert_core` followed by `undo` on any buffer: the recorded `Insert`
action is popped and the inserted span removed again. -/
lemma insert_then_undo (bm : TextBuffer) (t : List Char) (h : bm.cursor ≤ bm.rope.length) :
    bm.insert_core t = some
      { bm with rope := bm.rope.take bm.cursor ++ t ++ bm.rope.drop bm.cursor,
                cursor := bm.cursor + t.length,
                undo_stack := .insert bm.cursor t :: bm.undo_stack, redo_stack := [] } ∧
    ({ bm with rope := bm.rope.take bm.cursor ++ t ++ bm.rope.drop bm.cursor,
               cursor := bm.cursor + t.length,
               undo_stack := .insert bm.cursor t :: bm.undo_stack,
               redo_stack := [] } : TextBuffer).undo =
      some ⟨bm.rope, bm.cursor, none, bm.undo_stack, [.insert bm.cursor t]⟩ := by
  refine ⟨insert_core_spec bm t h, ?_⟩
  have hrem : ropeRemove (bm.rope.take bm.cursor ++ t ++ bm.rope.drop bm.cursor) bm.cursor
      (bm.cursor + t.length) =
      some ((bm.rope.take bm.cursor ++ t ++ bm.rope.drop bm.cursor).take bm.cursor ++
        (bm.rope.take bm.cursor ++ t ++ bm.rope.drop bm.cursor).drop (bm.cursor + t.length)) :=
    ropeRemove_some (Nat.le_add_right _ _) (by rw [insert_length h]; omega)
  have hau : TextBuffer.apply_undo (.insert bm.cursor t)
      (bm.rope.take bm.cursor ++ t ++ bm.rope.drop bm.cursor) =
      some (bm.rope, bm.cursor) := by
    simp only [TextBuffer.apply_undo, hrem, Option.pure_def, Option.bind_eq_bind,
      Option.some_bind, Option.some.injEq, Prod.mk.injEq]
    constructor
    · exact insert_remove_round bm.rope t h
    · trivial
  exact undo_cons
    { bm with rope := bm.rope.take bm.cursor ++ t ++ bm.rope.drop bm.cursor,
              cursor := bm.cursor + t.length,
              undo_stack := .insert bm.cursor t :: bm.undo_stack, redo_stack := [] }
    rfl hau

/-- Replace-semantics core shared by `insert` and `insert_str` on an active
selection: `delete_selection` records one `Delete`, `insert_core` records one
`Insert`, and the two undos peel them off in order. -/
lemma sel_insert_undo_key (b : TextBuffer) (a : Nat) (t : List Char)
    (hanch : b.selection_anchor = some a) (hne : a ≠ b.cursor)
    (ha : a ≤ b.rope.length) (hc : b.cursor ≤ b.rope.length) :
    ∃ bm b', b.delete_selection = some bm ∧ bm.insert_core t = some b' ∧
      b'.undo_stack = Action.insert (min a b.cursor) t ::
        Action.delete (min a b.cursor)
          ((b.rope.take (max a b.cursor)).drop (min a b.cursor)) :: b.undo_stack ∧
      ∃ b1, b'.undo = some b1 ∧
        b1.rope = b.rope.take (min a b.cursor) ++ b.rope.drop (max a b.cursor) ∧
        ∃ b2, b1.undo = some b2 ∧ b2.rope = b.rope := by
  have hmm : min a b.cursor ≤ max a b.cursor :=
    Nat.le_trans (Nat.min_le_left _ _) (Nat.le_max_left _ _)
  have hmax : max a b.cursor ≤ b.rope.length := Nat.max_le.mpr ⟨ha, hc⟩
  have hmn : min a b.cursor ≤ b.rope.length := Nat.le_trans hmm hmax
  have hlt : (b.rope.take (min a b.cursor)).length = min a b.cursor :=
    List.length_take_of_le hmn
  have hds := delete_selection_spec b hanch hne ha hc
  have hbm_take : (b.rope.take (min a b.cursor) ++ b.rope.drop (max a b.cursor)).take
      (min a b.cursor) = b.rope.take (min a b.cursor) := by
    rw [List.take_append_of_le_length (by omega), List.take_take, Nat.min_self]
  have hbm_drop : (b.rope.take (min a b.cursor) ++ b.rope.drop (max a b.cursor)).drop
      (min a b.cursor) = b.rope.drop (max a b.cursor) := drop_append_left_of_length hlt
  have hbmlen : (b.rope.take (min a b.cursor) ++ b.rope.drop (max a b.cursor)).length =
      min a b.cursor + (b.rope.length - max a b.cursor) := by
    simp only [List.length_append, List.length_take, List.length_drop]
    omega
  obtain ⟨hic, hu1⟩ := insert_then_undo
    { b with rope := b.rope.take (min a b.cursor) ++ b.rope.drop (max a b.cursor),
             cursor := min a b.cursor,
             selection_anchor := none,
             undo_stack := .delete (min a b.cursor)
               ((b.rope.take (max a b.cursor)).drop (min a b.cursor)) :: b.undo_stack,
             redo_stack := [] } t (by simp only [hbmlen]; omega)
  have hins2 : ropeInsert
      (b.rope.take (min a b.cursor) ++ b.rope.drop (max a b.cursor))
      (min a b.cursor)
      ((b.rope.take (max a b.cursor)).drop (min a b.cursor)) = some b.rope := by
    rw [ropeInsert_some _ (by rw [hbmlen]; omega), hbm_take, hbm_drop,
      remove_insert_round b.rope hmm hmax]
  have hau2 : TextBuffer.apply_undo
      (.delete (min a b.cursor) ((b.rope.take (max a b.cursor)).drop (min a b.cursor)))
      (b.rope.take (min a b.cursor) ++ b.rope.drop (max a b.cursor)) =
      some (b.rope, min a b.cursor +
        ((b.rope.take (max a b.cursor)).drop (min a b.cursor)).length) := by
    simp only [TextBuffer.apply_undo, hins2, Option.pure_def, Option.bind_eq_bind,
      Option.some_bind]
  exact ⟨_, _, hds, hic, rfl, _, hu1, rfl, _, undo_cons _ rfl hau2, rfl⟩

/-- C10: with an active non-empty selection, `insert(ch)` and `insert_str(s)`
push exactly two actions — first a `Delete` for the selected span, then an
`Insert` for the new text — so one `undo()` removes only the inserted text
(the selected text stays deleted) and a second `undo()` restores the
pre-edit content. -/
theorem C10_selection_insert_two_actions :
    (∀ (b : TextBuffer) (a : Nat) (t : List Char),
      b.selection_anchor = some a → a ≠ b.cursor →
      a ≤ b.rope.length → b.cursor ≤ b.rope.length →
      ∃ b', b.insert_str t = some b' ∧
        b'.undo_stack = Action.insert (min a b.cursor) t ::
          Action.delete (min a b.cursor)
            ((b.rope.take (max a b.cursor)).drop (min a b.cursor)) :: b.undo_stack ∧
        ∃ b1, b'.undo = some b1 ∧
          b1.rope = b.rope.take (min a b.cursor) ++ b.rope.drop (max a b.cursor) ∧
          ∃ b2, b1.undo = some b2 ∧ b2.rope = b.rope) ∧
    (∀ (b : TextBuffer) (a : Nat) (ch : Char),
      b.selection_anchor = some a → a ≠ b.cursor →
      a ≤ b.rope.length → b.cursor ≤ b.rope.length →
      ∃ b', b.insert ch = some b' ∧
        b'.undo_stack = Action.insert (min a b.cursor) [ch] ::
          Action.delete (min a b.cursor)
            ((b.rope.take (max a b.cursor)).drop (min a b.cursor)) :: b.undo_stack ∧
        ∃ b1, b'.undo = some b1 ∧
          b1.rope = b.rope.take (min a b.cursor) ++ b.rope.drop (max a b.cursor) ∧
          ∃ b2, b1.undo = some b2 ∧ b2.rope = b.rope) := by
  constructor
  · intro b a t hanch hne ha hc
    obtain ⟨bm, b', hds, hic, hstack, hrest⟩ := sel_insert_undo_key b a t hanch hne ha hc
    refine ⟨b', ?_, hstack, hrest⟩
    unfold TextBuffer.insert_str
    rw [has_selection_true hanch hne]
    simp only [if_true, hds, Option.bind_eq_bind, Option.some_bind]
    exact hic
  · intro b a ch hanch hne ha hc
    obtain ⟨bm, b', hds, hic, hstack, hrest⟩ := sel_insert_undo_key b a [ch] hanch hne ha hc
    refine ⟨b', ?_, hstack, hrest⟩
    unfold TextBuffer.insert
    rw [has_selection_true hanch hne]
    simp only [if_true, hds, Option.bind_eq_bind, Option.some_bind]
    exact hic

/-- Witness for C10 on `"hello"` with selection `1..3` and an inserted `'X'`. -/
theorem C10_selection_insert_two_actions_witness :
    ∃ b', (⟨"hello".toList, 3, some 1, [], []⟩ : TextBuffer).insert 'X' = some b' ∧
      b'.undo_stack = Action.insert (min 1 3) ['X'] ::
        Action.delete (min 1 3) ((("hello".toList).take (max 1 3)).drop (min 1 3)) :: [] ∧
      ∃ b1, b'.undo = some b1 ∧
        b1.rope = ("hello".toList).take (min 1 3) ++ ("hello".toList).drop (max 1 3) ∧
        ∃ b2, b1.undo = some b2 ∧ b2.rope = "hello".toList :=
  C10_selection_insert_two_actions.2 ⟨"hello".toList, 3, some 1, [], []⟩ 1 'X'
    rfl (by decide) (by decide) (by decide)

/-- Extract the middle segment of an append with `take`/`drop`. -/
lemma slice_middle (A M B : List Char) :
    ((A ++ (M ++ B)).take (A.length + M.length)).drop A.length = M := by
  have h1 : (A ++ (M ++ B)).take (A.length + M.length) = A ++ M := by
    rw [List.take_append_eq_append_take, List.take_of_length_le (by omega),
      Nat.add_sub_cancel_left, List.take_append_of_le_length (Nat.le_refl _),
      List.take_length]
  rw [h1]
  exact drop_append_left_of_length rfl

/-- Remove the middle segment of an append with `take`/`drop`. -/
lemma remove_middle (A M B : List Char) :
    (A ++ (M ++ B)).take A.length ++ (A ++ (M ++ B)).drop (A.length + M.length) =
      A ++ B := by
  have h1 : (A ++ (M ++ B)).take A.length = A := take_append_left_of_length rfl
  have h2 : (A ++ (M ++ B)).drop (A.length + M.length) = B := by
    rw [show A ++ (M ++ B) = (A ++ M) ++ B from by rw [List.append_assoc]]
    exact drop_append_left_of_length (by rw [List.length_append])
  rw [h1, h2]

/-- C7: with no selection and the cursor not at 0, the two documented cases
of `delete_word_left`. "Space" is the classifier's whitespace category
(category 2), exactly as the code's `category_check` uses it.
Case one: exactly one whitespace char immediately precedes the cursor (the
run `R` before it is of some other category `κ`, maximal towards `A`); the
whitespace char and the whole run `R` are removed as one `Delete` action.
Case two: the cursor is preceded by a whitespace run `W` of length ≥ 2
(maximal towards `A`); exactly `W` is removed, as one `Delete` action, and
nothing more. -/
theorem C7_delete_word_left_space_cases :
    (∀ (b : TextBuffer) (A R B : List Char) (w : Char) (κ : Nat),
      b.has_selection = false →
      b.rope = A ++ (R ++ (w :: B)) → b.cursor = A.length + R.length + 1 →
      category w = 2 →
      (∀ c ∈ R, category c = κ) → κ ≠ 2 →
      (R = [] → A = []) →
      (∀ c, A.getLast? = some c → category c ≠ κ) →
      b.delete_word_left = some
        { b with rope := A ++ B, cursor := A.length,
                 undo_stack := .delete A.length (R ++ [w]) :: b.undo_stack,
                 redo_stack := [] }) ∧
    (∀ (b : TextBuffer) (A W B : List Char),
      b.has_selection = false →
      b.rope = A ++ (W ++ B) → b.cursor = A.length + W.length →
      (∀ c ∈ W, category c = 2) → 2 ≤ W.length →
      (∀ c, A.getLast? = some c → category c ≠ 2) →
      b.delete_word_left = some
        { b with rope := A ++ B, cursor := A.length,
                 undo_stack := .delete A.length W :: b.undo_stack,
                 redo_stack := [] }) := by
  constructor
  · intro b A R B w κ hsel hr hc hw hR hκ hone hA
    have hlen : b.rope.length = A.length + (R.length + (1 + B.length)) := by
      rw [hr]
      simp only [List.length_append, List.length_cons]
      omega
    have hmaxR : A.length + R.length = 0 ∨
        ∃ c, b.rope.get? (A.length + R.length - 1) = some c ∧ category c ≠ 2 := by
      rcases List.eq_nil_or_concat R with hRnil | ⟨R0, r0, hRcc⟩
      · have hAnil : A = [] := hone hRnil
        left
        rw [hRnil, hAnil]
        rfl
      · right
        have hRne : R ≠ [] := by rw [hRcc]; simp
        have hRpos : 0 < R.length := List.length_pos.mpr hRne
        obtain ⟨c, hget, hmem⟩ := get?_append_seg A R (w :: B)
          (A.length + (R.length - 1)) (by omega) (by omega)
        refine ⟨c, ?_, by rw [hR c hmem]; exact hκ⟩
        rw [hr, show A.length + R.length - 1 = A.length + (R.length - 1) from by omega]
        exact hget
    have hwchar : b.rope.get? (A.length + R.length) = some w := by
      rw [hr, show A ++ (R ++ (w :: B)) = (A ++ R) ++ (w :: B) from by
        rw [List.append_assoc], List.get?_append_right (le_of_eq (List.length_append A R)),
        List.length_append, Nat.sub_self]
      rfl
    have hws : wsBackCount b.rope b.cursor = some (A.length + R.length, 1) := by
      have h1 : ((A.length + R.length, 1) : Nat × Nat) =
          (A.length + R.length, b.cursor - (A.length + R.length)) := by
        rw [hc]
        congr 1
        omega
      rw [h1]
      apply wsBackCount_eq (by rw [hc]; omega) (by omega)
      · intro i hi1 hi2
        have : i = A.length + R.length := by rw [hc] at hi2; omega
        subst this
        exact ⟨w, hwchar, hw⟩
      · exact hmaxR
    have hskipWS : skipCatBack b.rope 2 b.cursor = some (A.length + R.length) := by
      apply skipCatBack_eq (by rw [hc]; omega) (by omega)
      · intro i hi1 hi2
        have : i = A.length + R.length := by rw [hc] at hi2; omega
        subst this
        exact ⟨w, hwchar, hw⟩
      · exact hmaxR
    have hslice : ropeSlice b.rope A.length b.cursor = some (R ++ [w]) := by
      rw [hc, ropeSlice_some (by omega) (by omega), hr,
        show A ++ (R ++ (w :: B)) = A ++ ((R ++ [w]) ++ B) from by
          simp [List.append_assoc],
        show A.length + R.length + 1 = A.length + (R ++ [w]).length from by
          simp only [List.length_append, List.length_cons, List.length_nil]
          omega]
      exact congrArg some (slice_middle A (R ++ [w]) B)
    have hremove : ropeRemove b.rope A.length b.cursor = some (A ++ B) := by
      rw [hc, ropeRemove_some (by omega) (by omega), hr,
        show A ++ (R ++ (w :: B)) = A ++ ((R ++ [w]) ++ B) from by
          simp [List.append_assoc],
        show A.length + R.length + 1 = A.length + (R ++ [w]).length from by
          simp only [List.length_append, List.length_cons, List.length_nil]
          omega]
      exact congrArg some (remove_middle A (R ++ [w]) B)
    unfold TextBuffer.delete_word_left
    rw [if_neg (by rw [hsel]; simp), if_neg (by rw [hc]; omega)]
    simp only [hws, Option.bind_eq_bind, Option.some_bind]
    rw [if_neg (by omega), if_pos (by trivial)]
    rcases Nat.eq_zero_or_pos (A.length + R.length) with hz | hpos
    · have he : A.length + R.length = A.length := by omega
      rw [he] at hskipWS
      simp only [hskipWS, Option.bind_eq_bind, Option.some_bind]
      rw [if_neg (by omega)]
      simp only [Option.pure_def, Option.some_bind]
      rw [if_pos (by rw [hc]; omega)]
      simp only [hslice, Option.bind_eq_bind, Option.some_bind, TextBuffer.record_action,
        hremove]
    · have hRne : R ≠ [] := by
        intro hRnil
        have hAn := hone hRnil
        rw [hRnil, hAn] at hpos
        simp at hpos
      have hRpos : 0 < R.length := List.length_pos.mpr hRne
      obtain ⟨cl, hcl, hclR⟩ := get?_append_seg A R (w :: B)
        (A.length + (R.length - 1)) (by omega) (by omega)
      have hclcat : category cl = κ := hR cl hclR
      have hclrope : ropeChar b.rope (A.length + R.length - 1) = some cl := by
        rw [ropeChar, hr, show A.length + R.length - 1 = A.length + (R.length - 1) from by
          omega]
        exact hcl
      have hskipR : skipCatBack b.rope κ (A.length + R.length) = some A.length := by
        apply skipCatBack_eq (by omega) (by omega)
        · intro i hi1 hi2
          obtain ⟨c, hget, hmem⟩ := get?_append_seg A R (w :: B) i (by omega) (by omega)
          exact ⟨c, by rw [hr]; exact hget, hR c hmem⟩
        · rcases List.eq_nil_or_concat A with hAnil | ⟨A0, a0, hAcc⟩
          · left
            rw [hAnil]
            rfl
          · right
            have hAne : A ≠ [] := by rw [hAcc]; simp
            have hApos : 0 < A.length := List.length_pos.mpr hAne
            have hltA : A.length - 1 < A.length := by omega
            refine ⟨A.getLast hAne, ?_, hA _ (List.getLast?_eq_getLast A hAne)⟩
            rw [hr, List.get?_append hltA, List.get?_eq_get hltA]
            congr 1
            exact (List.getLast_eq_get A hAne).symm
      simp only [hskipWS, Option.bind_eq_bind, Option.some_bind]
      rw [if_pos hpos]
      simp only [hclrope, Option.bind_eq_bind, Option.some_bind, hclcat, hskipR]
      rw [if_pos (by rw [hc]; omega)]
      simp only [hslice, Option.bind_eq_bind, Option.some_bind, TextBuffer.record_action,
        hremove]
      rfl
  · intro b A W B hsel hr hc hW hW2 hA
    have hlen : b.rope.length = A.length + (W.length + B.length) := by
      rw [hr]
      simp only [List.length_append]
    have hmaxA : A.length = 0 ∨
        ∃ c, b.rope.get? (A.length - 1) = some c ∧ category c ≠ 2 := by
      rcases List.eq_nil_or_concat A with hAnil | ⟨A0, a0, hAcc⟩
      · left
        rw [hAnil]
        rfl
      · right
        have hAne : A ≠ [] := by rw [hAcc]; simp
        have hApos : 0 < A.length := List.length_pos.mpr hAne
        have hltA : A.length - 1 < A.length := by omega
        refine ⟨A.getLast hAne, ?_, hA _ (List.getLast?_eq_getLast A hAne)⟩
        rw [hr, List.get?_append hltA, List.get?_eq_get hltA]
        congr 1
        exact (List.getLast_eq_get A hAne).symm
    have hws : wsBackCount b.rope b.cursor = some (A.length, W.length) := by
      have h1 : ((A.length, W.length) : Nat × Nat) = (A.length, b.cursor - A.length) := by
        rw [hc]
        congr 1
        omega
      rw [h1]
      apply wsBackCount_eq (by rw [hc]; omega) (by omega)
      · intro i hi1 hi2
        obtain ⟨c, hget, hmem⟩ := get?_append_seg A W B i (by omega)
          (by rw [hc] at hi2; omega)
        exact ⟨c, by rw [hr]; exact hget, hW c hmem⟩
      · exact hmaxA
    have hslice : ropeSlice b.rope A.length b.cursor = some W := by
      rw [hc, ropeSlice_some (by omega) (by omega), hr]
      exact congrArg some (slice_middle A W B)
    have hremove : ropeRemove b.rope A.length b.cursor = some (A ++ B) := by
      rw [hc, ropeRemove_some (by omega) (by omega), hr]
      exact congrArg some (remove_middle A W B)
    unfold TextBuffer.delete_word_left
    rw [if_neg (by rw [hsel]; simp), if_neg (by rw [hc]; omega)]
    simp only [hws, Option.bind_eq_bind, Option.some_bind]
    rw [if_pos (by omega)]
    simp only [Option.pure_def, Option.some_bind]
    rw [if_pos (by rw [hc]; omega)]
    simp only [hslice, Option.bind_eq_bind, Option.some_bind, TextBuffer.record_action,
      hremove]

/-- Witness for C7 (single-whitespace case) on `"ab cd "` with the cursor at
the end: the space and the word run `"cd"` are deleted together. -/
theorem C7_delete_word_left_space_cases_witness :
    (⟨"ab cd ".toList, 6, none, [], []⟩ : TextBuffer).delete_word_left = some
      { (⟨"ab cd ".toList, 6, none, [], []⟩ : TextBuffer) with
        rope := "ab ".toList ++ [], cursor := ("ab ".toList).length,
        undo_stack := .delete ("ab ".toList).length ("cd".toList ++ [' ']) :: [],
        redo_stack := [] } :=
  C7_delete_word_left_space_cases.1 ⟨"ab cd ".toList, 6, none, [], []⟩
    ("ab ".toList) ("cd".toList) [] ' ' 1 rfl (by decide) (by decide) (by decide)
    (by decide) (by decide) (fun h => absurd h (by decide))
    (fun c hc => by
      rw [show (("ab ".toList).getLast? : Option Char) = some ' ' from by decide] at hc
      injection hc with h2
      subst h2
      decide)

/-- Witness for C3's amended claim at the counterexample input itself: on
"a\nb\nc" with the cursor on line 1, the repaired rope is "a\nb\nc\n", the
recomputed line range is (1, 1), and the result "b\na\nc\n" is exactly the
transposition of the blocks at the line boundaries. -/
theorem C3_amended_trailing_newline_witness :
    (⟨"b\na\nc\n".toList, 0, none, [], []⟩ : TextBuffer).rope.length =
        (TextBuffer.ensure_trailing_newline ("a\nb\nc".toList)).length ∧
      ∃ se t1 bs be,
        (⟨TextBuffer.ensure_trailing_newline ("a\nb\nc".toList), 2, none, [], []⟩ :
            TextBuffer).get_line_range_to_move = some se ∧
        lineToChar (TextBuffer.ensure_trailing_newline ("a\nb\nc".toList))
          (((1, 1) : Nat × Nat).1 - 1) = some t1 ∧
        lineToChar (TextBuffer.ensure_trailing_newline ("a\nb\nc".toList)) se.1 = some bs ∧
        lineToChar (TextBuffer.ensure_trailing_newline ("a\nb\nc".toList)) (se.2 + 1) =
          some be ∧
        t1 ≤ bs ∧ bs ≤ be ∧
        be ≤ (TextBuffer.ensure_trailing_newline ("a\nb\nc".toList)).length ∧
        (⟨"b\na\nc\n".toList, 0, none, [], []⟩ : TextBuffer).rope =
          (TextBuffer.ensure_trailing_newline ("a\nb\nc".toList)).take t1 ++
            ((TextBuffer.ensure_trailing_newline ("a\nb\nc".toList)).take be).drop bs ++
            (((TextBuffer.ensure_trailing_newline ("a\nb\nc".toList)).take bs).drop t1 ++
              (TextBuffer.ensure_trailing_newline ("a\nb\nc".toList)).drop be) ∧
        (⟨"b\na\nc\n".toList, 0, none, [], []⟩ : TextBuffer).rope.take t1 =
          (TextBuffer.ensure_trailing_newline ("a\nb\nc".toList)).take t1 ∧
        (⟨"b\na\nc\n".toList, 0, none, [], []⟩ : TextBuffer).rope.drop be =
          (TextBuffer.ensure_trailing_newline ("a\nb\nc".toList)).drop be :=
  C3_amended_trailing_newline.1 ⟨"a\nb\nc".toList, 2, none, [], []⟩
    ⟨"b\na\nc\n".toList, 0, none, [], []⟩ (1, 1) (by decide) (by decide) (by decide)

end FireNotes
namespace FireNotes

/-! ### Undo/redo round-trip machinery (claims C1, C2, C5) -/

lemma undoN_succ (b : TextBuffer) (n : Nat) :
    undoN b (n + 1) = b.undo.bind (fun b' => undoN b' n) := rfl

lemma undo_nil {b : TextBuffer} (h : b.undo_stack = []) : b.undo = some b := by
  simp only [TextBuffer.undo, h]
  rfl

lemma undoN_nil {b : TextBuffer} (h : b.undo_stack = []) : ∀ n, undoN b n = some b := by
  intro n
  induction n with
  | zero => rfl
  | succ m ih => rw [undoN_succ, undo_nil h, Option.some_bind, ih]

lemma redo_cons (b : TextBuffer) {a : Action} {rest : List Action}
    (h : b.redo_stack = a :: rest) {rc : List Char × Nat}
    (h2 : TextBuffer.apply_redo a b.rope = some rc) :
    b.redo = some ⟨rc.1, rc.2, none, a :: b.undo_stack, rest⟩ := by
  simp only [TextBuffer.redo, h, h2, Option.some_bind]
  rfl

/-- A successful rope insertion both undoes and redoes exactly in place. -/
lemma insert_round {r : List Char} {c : Nat} {t r' : List Char}
    (h : ropeInsert r c t = some r') :
    (TextBuffer.apply_undo (.insert c t) r').map Prod.fst = some r ∧
      (TextBuffer.apply_redo (.insert c t) r).map Prod.fst = some r' := by
  obtain ⟨hc, rfl⟩ := ropeInsert_eq_some h
  constructor
  · have hrem : ropeRemove (r.take c ++ t ++ r.drop c) c (c + t.length) = some r := by
      rw [ropeRemove_some (by omega) (by rw [insert_length hc]; omega),
        insert_remove_round r t hc]
    simp only [TextBuffer.apply_undo, hrem, Option.bind_eq_bind, Option.some_bind,
      Option.pure_def, Option.map_some']
  · simp only [TextBuffer.apply_redo, ropeInsert_some t hc, Option.bind_eq_bind,
      Option.some_bind, Option.pure_def, Option.map_some']

/-- A successful rope removal, recorded with the removed slice, both undoes
and redoes exactly in place. -/
lemma delete_round {r : List Char} {s e : Nat} {t r' : List Char}
    (hsl : ropeSlice r s e = some t) (hrm : ropeRemove r s e = some r') :
    (TextBuffer.apply_undo (.delete s t) r').map Prod.fst = some r ∧
      (TextBuffer.apply_redo (.delete s t) r).map Prod.fst = some r' := by
  obtain ⟨hse, hel, rfl⟩ := ropeSlice_eq_some hsl
  obtain ⟨h1, h2, rfl⟩ := ropeRemove_eq_some hrm
  have htake : (r.take s).length = s := List.length_take_of_le (by omega)
  have htlen : ((r.take e).drop s).length = e - s := by
    rw [List.length_drop, List.length_take_of_le hel]
  constructor
  · have hins : ropeInsert (r.take s ++ r.drop e) s ((r.take e).drop s) = some r := by
      rw [ropeInsert_some _ (by rw [List.length_append, htake]; omega)]
      rw [List.take_append_of_le_length (le_of_eq htake.symm), List.take_take,
        Nat.min_self, List.drop_append_eq_append_drop, htake, Nat.sub_self,
        List.drop_drop, List.drop_of_length_le (le_of_eq htake), Nat.add_zero,
        List.nil_append, remove_insert_round r hse hel]
    simp only [TextBuffer.apply_undo, hins, Option.bind_eq_bind, Option.some_bind,
      Option.pure_def, Option.map_some']
  · have hrem : ropeRemove r s (s + ((r.take e).drop s).length) =
        some (r.take s ++ r.drop e) := by
      rw [htlen, show s + (e - s) = e from by omega, ropeRemove_some hse hel]
    simp only [TextBuffer.apply_redo, hrem, Option.bind_eq_bind, Option.some_bind,
      Option.pure_def, Option.map_some']

lemma skipCatBack_zero (r : List Char) (κ : Nat) : skipCatBack r κ 0 = some 0 := rfl

lemma skipCatBack_le {r : List Char} {κ p q : Nat} (h : skipCatBack r κ p = some q) :
    q ≤ p := by
  induction p generalizing q with
  | zero =>
    rw [skipCatBack_zero] at h
    injection h with h
    omega
  | succ n ih =>
    rw [skipCatBack_succ] at h
    obtain ⟨c, hc, h⟩ := Option.bind_eq_some.mp h
    split at h
    · exact Nat.le_succ_of_le (ih h)
    · injection h with h
      omega

lemma skipCatBack_strict {r : List Char} {p q : Nat} {c : Char} (hp : 0 < p)
    (hc : ropeChar r (p - 1) = some c)
    (h : skipCatBack r (category c) p = some q) : q < p := by
  obtain ⟨n, rfl⟩ : ∃ n, p = n + 1 := ⟨p - 1, by omega⟩
  have hc' : r.get? n = some c := hc
  rw [skipCatBack_succ, hc', Option.some_bind, if_pos rfl] at h
  exact Nat.lt_succ_of_le (skipCatBack_le h)

lemma wsBackCount_zero (r : List Char) : wsBackCount r 0 = some (0, 0) := rfl

lemma wsBackCount_sum {r : List Char} {p q k : Nat} (h : wsBackCount r p = some (q, k)) :
    q + k = p := by
  induction p generalizing q k with
  | zero =>
    rw [wsBackCount_zero] at h
    injection h with h
    rw [Prod.mk.injEq] at h
    omega
  | succ n ih =>
    rw [wsBackCount_succ] at h
    obtain ⟨c, hc, h⟩ := Option.bind_eq_some.mp h
    split at h
    · obtain ⟨qk, hqk, h⟩ := Option.bind_eq_some.mp h
      injection h with h
      rw [Prod.mk.injEq] at h
      have hsum : qk.1 + qk.2 = n := ih (by rw [hqk])
      omega
    · injection h with h
      rw [Prod.mk.injEq] at h
      omega

/-- Inversion of a successful `insert_core`. -/
lemma insert_core_inv {b b' : TextBuffer} {t : List Char} (h : b.insert_core t = some b') :
    ropeInsert b.rope b.cursor t = some b'.rope ∧
      b'.undo_stack = Action.insert b.cursor t :: b.undo_stack ∧ b'.redo_stack = [] := by
  simp only [TextBuffer.insert_core, TextBuffer.record_action, Option.bind_eq_bind,
    Option.pure_def] at h
  obtain ⟨r, hr, h⟩ := Option.bind_eq_some.mp h
  cases h
  exact ⟨hr, rfl, rfl⟩

/-- Inversion of a successful `delete_selection` on a buffer with an active
selection. -/
lemma delete_selection_inv {b bm : TextBuffer} (hsel : b.has_selection = true)
    (h : b.delete_selection = some bm) :
    ∃ s e t, ropeSlice b.rope s e = some t ∧ ropeRemove b.rope s e = some bm.rope ∧
      bm.undo_stack = Action.delete s t :: b.undo_stack ∧ bm.redo_stack = [] := by
  rcases hA : b.selection_anchor with _ | a
  · rw [TextBuffer.has_selection, hA] at hsel
    simp at hsel
  · have hne : a ≠ b.cursor := by
      rw [TextBuffer.has_selection, hA] at hsel
      simp only [Option.isSome_some, Bool.true_and, ne_eq, decide_not,
        Bool.not_eq_eq_eq_not, Bool.not_true, decide_eq_false_iff_not,
        Option.some.injEq] at hsel
      exact hsel
    rw [TextBuffer.delete_selection, min_max_selection_range hA hne] at h
    simp only [TextBuffer.record_action, Option.bind_eq_bind, Option.pure_def] at h
    obtain ⟨text, htext, h⟩ := Option.bind_eq_some.mp h
    obtain ⟨r, hr, h⟩ := Option.bind_eq_some.mp h
    cases h
    exact ⟨min a b.cursor, max a b.cursor, text, htext, hr, rfl, rfl⟩


/-- Pure movement/selection operations touch neither the rope nor the two
history stacks. -/
lemma pureMove_frame {b : TextBuffer} {op : Op} {b' : TextBuffer} (hp : pureMove op = true)
    (h : applyOp b op = some b') :
    b'.rope = b.rope ∧ b'.undo_stack = b.undo_stack ∧ b'.redo_stack = b.redo_stack := by
  cases op with
  | insert ch => exact (Bool.false_ne_true hp).elim
  | insert_str t => exact (Bool.false_ne_true hp).elim
  | backspace => exact (Bool.false_ne_true hp).elim
  | delete => exact (Bool.false_ne_true hp).elim
  | delete_word_left => exact (Bool.false_ne_true hp).elim
  | delete_selection => exact (Bool.false_ne_true hp).elim
  | move_lines_up => exact (Bool.false_ne_true hp).elim
  | move_lines_down => exact (Bool.false_ne_true hp).elim
  | undo => exact (Bool.false_ne_true hp).elim
  | redo => exact (Bool.false_ne_true hp).elim
  | move_left s =>
    simp only [applyOp, TextBuffer.move_left, Option.pure_def, Option.some.injEq] at h
    subst h
    split
    · exact ⟨sel_update_rope b s, sel_update_undo_stack b s, sel_update_redo_stack b s⟩
    · exact ⟨sel_update_rope b s, sel_update_undo_stack b s, sel_update_redo_stack b s⟩
  | move_right s =>
    simp only [applyOp, TextBuffer.move_right, Option.pure_def, Option.some.injEq] at h
    subst h
    split
    · exact ⟨sel_update_rope b s, sel_update_undo_stack b s, sel_update_redo_stack b s⟩
    · exact ⟨sel_update_rope b s, sel_update_undo_stack b s, sel_update_redo_stack b s⟩
  | move_word_left s =>
    simp only [applyOp, TextBuffer.move_word_left, Option.bind_eq_bind,
      Option.pure_def] at h
    split at h
    · cases h
      exact ⟨sel_update_rope b s, sel_update_undo_stack b s, sel_update_redo_stack b s⟩
    · obtain ⟨p1, hp1, h⟩ := Option.bind_eq_some.mp h
      split at h
      · obtain ⟨c, hc, h⟩ := Option.bind_eq_some.mp h
        obtain ⟨p, hpp, h⟩ := Option.bind_eq_some.mp h
        cases h
        exact ⟨sel_update_rope b s, sel_update_undo_stack b s, sel_update_redo_stack b s⟩
      · cases h
        exact ⟨sel_update_rope b s, sel_update_undo_stack b s, sel_update_redo_stack b s⟩
  | move_word_right s =>
    simp only [applyOp, TextBuffer.move_word_right, Option.bind_eq_bind,
      Option.pure_def] at h
    split at h
    · cases h
      exact ⟨sel_update_rope b s, sel_update_undo_stack b s, sel_update_redo_stack b s⟩
    · split at h
      · obtain ⟨c, hc, h⟩ := Option.bind_eq_some.mp h
        cases h
        exact ⟨sel_update_rope b s, sel_update_undo_stack b s, sel_update_redo_stack b s⟩
      · cases h
        exact ⟨sel_update_rope b s, sel_update_undo_stack b s, sel_update_redo_stack b s⟩
  | move_up s =>
    simp only [applyOp, TextBuffer.move_up, Option.bind_eq_bind, Option.pure_def] at h
    obtain ⟨line, hline, h⟩ := Option.bind_eq_some.mp h
    split at h
    · cases h
      exact ⟨sel_update_rope b s, sel_update_undo_stack b s, sel_update_redo_stack b s⟩
    · obtain ⟨ls, hls, h⟩ := Option.bind_eq_some.mp h
      obtain ⟨col, hcol, h⟩ := Option.bind_eq_some.mp h
      obtain ⟨pls, hpls, h⟩ := Option.bind_eq_some.mp h
      obtain ⟨pll, hpll, h⟩ := Option.bind_eq_some.mp h
      cases h
      exact ⟨sel_update_rope b s, sel_update_undo_stack b s, sel_update_redo_stack b s⟩
  | move_down s =>
    simp only [applyOp, TextBuffer.move_down, Option.bind_eq_bind, Option.pure_def] at h
    obtain ⟨line, hline, h⟩ := Option.bind_eq_some.mp h
    split at h
    · cases h
      exact ⟨sel_update_rope b s, sel_update_undo_stack b s, sel_update_redo_stack b s⟩
    · obtain ⟨ls, hls, h⟩ := Option.bind_eq_some.mp h
      obtain ⟨col, hcol, h⟩ := Option.bind_eq_some.mp h
      obtain ⟨nls, hnls, h⟩ := Option.bind_eq_some.mp h
      obtain ⟨nll, hnll, h⟩ := Option.bind_eq_some.mp h
      cases h
      exact ⟨sel_update_rope b s, sel_update_undo_stack b s, sel_update_redo_stack b s⟩
  | move_to_line_start s =>
    simp only [applyOp, TextBuffer.move_to_line_start, Option.bind_eq_bind,
      Option.pure_def] at h
    obtain ⟨line, hline, h⟩ := Option.bind_eq_some.mp h
    obtain ⟨st, hst, h⟩ := Option.bind_eq_some.mp h
    cases h
    exact ⟨sel_update_rope b s, sel_update_undo_stack b s, sel_update_redo_stack b s⟩
  | move_to_line_end s =>
    simp only [applyOp, TextBuffer.move_to_line_end, Option.bind_eq_bind,
      Option.pure_def] at h
    obtain ⟨line, hline, h⟩ := Option.bind_eq_some.mp h
    obtain ⟨ll, hll, h⟩ := Option.bind_eq_some.mp h
    obtain ⟨ls, hls, h⟩ := Option.bind_eq_some.mp h
    split at h
    · obtain ⟨c, hc, h⟩ := Option.bind_eq_some.mp h
      cases h
      exact ⟨sel_update_rope b s, sel_update_undo_stack b s, sel_update_redo_stack b s⟩
    · cases h
      exact ⟨sel_update_rope b s, sel_update_undo_stack b s, sel_update_redo_stack b s⟩
  | move_to_start s =>
    simp only [applyOp, TextBuffer.move_to_start, Option.pure_def, Option.some.injEq] at h
    subst h
    exact ⟨sel_update_rope b s, sel_update_undo_stack b s, sel_update_redo_stack b s⟩
  | move_to_end s =>
    simp only [applyOp, TextBuffer.move_to_end, Option.pure_def, Option.some.injEq] at h
    subst h
    exact ⟨sel_update_rope b s, sel_update_undo_stack b s, sel_update_redo_stack b s⟩
  | set_cursor_by_line_col l c s =>
    simp only [applyOp, TextBuffer.set_cursor_by_line_col, Option.bind_eq_bind,
      Option.pure_def] at h
    split at h
    · cases h
      exact ⟨sel_update_rope b s, sel_update_undo_stack b s, sel_update_redo_stack b s⟩
    · obtain ⟨ls, hls, h⟩ := Option.bind_eq_some.mp h
      obtain ⟨ll, hll, h⟩ := Option.bind_eq_some.mp h
      cases h
      exact ⟨sel_update_rope b s, sel_update_undo_stack b s, sel_update_redo_stack b s⟩
  | start_selection =>
    simp only [applyOp, Option.pure_def, Option.some.injEq] at h
    subst h
    simp only [TextBuffer.start_selection]
    split
    · exact ⟨rfl, rfl, rfl⟩
    · exact ⟨rfl, rfl, rfl⟩
  | clear_selection =>
    simp only [applyOp, Option.pure_def, Option.some.injEq] at h
    subst h
    exact ⟨rfl, rfl, rfl⟩
  | select_all =>
    simp only [applyOp, TextBuffer.select_all, Option.pure_def, Option.some.injEq] at h
    subst h
    exact ⟨rfl, rfl, rfl⟩
  | select_word_at_cursor =>
    simp only [applyOp, TextBuffer.select_word_at_cursor, Option.bind_eq_bind,
      Option.pure_def] at h
    split at h
    · cases h
      exact ⟨rfl, rfl, rfl⟩
    · obtain ⟨c, hc, h⟩ := Option.bind_eq_some.mp h
      obtain ⟨st, hst, h⟩ := Option.bind_eq_some.mp h
      cases h
      exact ⟨rfl, rfl, rfl⟩
  | select_line_at_cursor =>
    simp only [applyOp, TextBuffer.select_line_at_cursor, Option.bind_eq_bind,
      Option.pure_def] at h
    split at h
    · cases h
      exact ⟨rfl, rfl, rfl⟩
    · obtain ⟨li, hli, h⟩ := Option.bind_eq_some.mp h
      obtain ⟨st, hst, h⟩ := Option.bind_eq_some.mp h
      split at h
      · obtain ⟨e, he, h⟩ := Option.bind_eq_some.mp h
        cases h
        exact ⟨rfl, rfl, rfl⟩
      · cases h
        exact ⟨rfl, rfl, rfl⟩


/-- Core invariant of `ReachH`: the undo stack replays exactly the ghost
history (each pop also redoes back in place), and the redo stack
round-trips. -/
lemma reachH_hist {b : TextBuffer} {H : List (List Char)} (h : ReachH b H) :
    Hist b.undo_stack b.rope H ∧ RedoOK b.redo_stack b.rope := by
  induction h with
  | init t => exact ⟨rfl, True.intro⟩
  | @mv b H op b' hprev hp ha ih =>
    obtain ⟨hr, hu, hd⟩ := pureMove_frame hp ha
    rw [hr, hu, hd]
    exact ih
  | @ins_nosel b H ch b' h1 hsel hins ih =>
    simp only [TextBuffer.insert, hsel, Bool.false_eq_true, if_false, Option.pure_def,
      Option.some_bind, Option.bind_eq_bind] at hins
    obtain ⟨hir, hust, hrst⟩ := insert_core_inv hins
    refine ⟨?_, ?_⟩
    · rw [hust]
      exact ⟨b.rope, H, rfl, (insert_round hir).1, (insert_round hir).2, ih.1⟩
    · rw [hrst]
      exact True.intro
  | @ins_sel b H ch bm b' h1 hsel hds hic ih =>
    obtain ⟨s, e, t, hsl, hrm, hust, hrst⟩ := delete_selection_inv hsel hds
    obtain ⟨hir, hust2, hrst2⟩ := insert_core_inv hic
    refine ⟨?_, ?_⟩
    · rw [hust2, hust]
      exact ⟨bm.rope, b.rope :: H, rfl, (insert_round hir).1, (insert_round hir).2,
        b.rope, H, rfl, (delete_round hsl hrm).1, (delete_round hsl hrm).2, ih.1⟩
    · rw [hrst2]
      exact True.intro
  | @insstr_nosel b H t b' h1 hsel hins ih =>
    simp only [TextBuffer.insert_str, hsel, Bool.false_eq_true, if_false, Option.pure_def,
      Option.some_bind, Option.bind_eq_bind] at hins
    obtain ⟨hir, hust, hrst⟩ := insert_core_inv hins
    refine ⟨?_, ?_⟩
    · rw [hust]
      exact ⟨b.rope, H, rfl, (insert_round hir).1, (insert_round hir).2, ih.1⟩
    · rw [hrst]
      exact True.intro
  | @insstr_sel b H t bm b' h1 hsel hds hic ih =>
    obtain ⟨s, e, t', hsl, hrm, hust, hrst⟩ := delete_selection_inv hsel hds
    obtain ⟨hir, hust2, hrst2⟩ := insert_core_inv hic
    refine ⟨?_, ?_⟩
    · rw [hust2, hust]
      exact ⟨bm.rope, b.rope :: H, rfl, (insert_round hir).1, (insert_round hir).2,
        b.rope, H, rfl, (delete_round hsl hrm).1, (delete_round hsl hrm).2, ih.1⟩
    · rw [hrst2]
      exact True.intro
  | @delsel b H b' h1 hsel hds ih =>
    obtain ⟨s, e, t, hsl, hrm, hust, hrst⟩ := delete_selection_inv hsel hds
    refine ⟨?_, ?_⟩
    · rw [hust]
      exact ⟨b.rope, H, rfl, (delete_round hsl hrm).1, (delete_round hsl hrm).2, ih.1⟩
    · rw [hrst]
      exact True.intro
  | @bsp b H b' h1 hsel hpos hbsp ih =>
    simp only [TextBuffer.backspace, hsel, Bool.false_eq_true, if_false] at hbsp
    rw [if_pos hpos] at hbsp
    simp only [TextBuffer.record_action, Option.bind_eq_bind, Option.pure_def] at hbsp
    obtain ⟨ch, hch, hbsp⟩ := Option.bind_eq_some.mp hbsp
    obtain ⟨r, hrr, hbsp⟩ := Option.bind_eq_some.mp hbsp
    cases hbsp
    exact ⟨⟨b.rope, H, rfl, (delete_round hch hrr).1, (delete_round hch hrr).2, ih.1⟩,
      True.intro⟩
  | @del b H b' h1 hsel hlt hdel ih =>
    simp only [TextBuffer.delete, hsel, Bool.false_eq_true, if_false] at hdel
    rw [if_pos hlt] at hdel
    simp only [TextBuffer.record_action, Option.bind_eq_bind, Option.pure_def] at hdel
    obtain ⟨ch, hch, hdel⟩ := Option.bind_eq_some.mp hdel
    obtain ⟨r, hrr, hdel⟩ := Option.bind_eq_some.mp hdel
    cases hdel
    exact ⟨⟨b.rope, H, rfl, (delete_round hch hrr).1, (delete_round hch hrr).2, ih.1⟩,
      True.intro⟩
  | @dwl b H b' h1 hsel hpos hdwl ih =>
    simp only [TextBuffer.delete_word_left, hsel, Bool.false_eq_true, if_false,
      Option.bind_eq_bind, Option.pure_def] at hdwl
    rw [if_neg (show ¬ b.cursor = 0 from by omega)] at hdwl
    obtain ⟨sc, hsc, hdwl⟩ := Option.bind_eq_some.mp hdwl
    have hsum : sc.1 + sc.2 = b.cursor := wsBackCount_sum (by rw [hsc])
    by_cases hgt : sc.2 > 1
    · rw [if_pos hgt] at hdwl
      simp only [Option.some_bind] at hdwl
      have hlt : sc.1 < b.cursor := by omega
      rw [if_pos hlt] at hdwl
      simp only [TextBuffer.record_action] at hdwl
      obtain ⟨text, htext, hdwl⟩ := Option.bind_eq_some.mp hdwl
      obtain ⟨r, hrr, hdwl⟩ := Option.bind_eq_some.mp hdwl
      cases hdwl
      exact ⟨⟨b.rope, H, rfl, (delete_round htext hrr).1, (delete_round htext hrr).2,
        ih.1⟩, True.intro⟩
    · rw [if_neg hgt] at hdwl
      obtain ⟨s1, hs1, hdwl⟩ := Option.bind_eq_some.mp hdwl
      have hs1le : s1 ≤ b.cursor := by
        have hle := skipCatBack_le hs1
        by_cases h1 : sc.2 = 1
        · rw [if_pos h1] at hle
          exact hle
        · rw [if_neg h1] at hle
          omega
      by_cases hs1pos : s1 > 0
      · rw [if_pos hs1pos] at hdwl
        obtain ⟨c, hc, hdwl⟩ := Option.bind_eq_some.mp hdwl
        obtain ⟨start, hstart, hdwl⟩ := Option.bind_eq_some.mp hdwl
        have hlt : start < b.cursor := by
          have hq := skipCatBack_strict hs1pos hc hstart
          omega
        rw [if_pos hlt] at hdwl
        simp only [TextBuffer.record_action] at hdwl
        obtain ⟨text, htext, hdwl⟩ := Option.bind_eq_some.mp hdwl
        obtain ⟨r, hrr, hdwl⟩ := Option.bind_eq_some.mp hdwl
        cases hdwl
        exact ⟨⟨b.rope, H, rfl, (delete_round htext hrr).1, (delete_round htext hrr).2,
          ih.1⟩, True.intro⟩
      · rw [if_neg hs1pos] at hdwl
        simp only [Option.some_bind] at hdwl
        have hlt : s1 < b.cursor := by omega
        rw [if_pos hlt] at hdwl
        simp only [TextBuffer.record_action] at hdwl
        obtain ⟨text, htext, hdwl⟩ := Option.bind_eq_some.mp hdwl
        obtain ⟨r, hrr, hdwl⟩ := Option.bind_eq_some.mp hdwl
        cases hdwl
        exact ⟨⟨b.rope, H, rfl, (delete_round htext hrr).1, (delete_round htext hrr).2,
          ih.1⟩, True.intro⟩
  | @undo_step b H r b' hprev hu ih =>
    rcases hs : b.undo_stack with _ | ⟨a, rest⟩
    · rw [hs] at ih
      exact absurd ih.1 (List.cons_ne_nil r H)
    · rw [hs] at ih
      obtain ⟨⟨r', H', hEq, hau, har, hrest⟩, hredo⟩ := ih
      injection hEq with hEq1 hEq2
      subst hEq1
      subst hEq2
      obtain ⟨rc, hrc, hfst⟩ := Option.map_eq_some'.mp hau
      have hundo := undo_cons b hs hrc
      rw [hu] at hundo
      injection hundo with hundo
      subst hundo
      constructor
      · show Hist rest rc.1 H
        rw [hfst]
        exact hrest
      · show RedoOK (a :: b.redo_stack) rc.1
        rw [hfst]
        exact ⟨b.rope, har, hau, hredo⟩
  | @redo_step b H b' hprev hne hrd ih =>
    rcases hs : b.redo_stack with _ | ⟨a, rest⟩
    · exact absurd hs hne
    · obtain ⟨hhist, hredo⟩ := ih
      rw [hs] at hredo
      obtain ⟨r', hredo1, hundo1, hrest⟩ := hredo
      obtain ⟨rc, hrc, hfst⟩ := Option.map_eq_some'.mp hredo1
      have hredoc := redo_cons b hs hrc
      rw [hrd] at hredoc
      injection hredoc with hredoc
      subst hredoc
      constructor
      · show Hist (a :: b.undo_stack) rc.1 (b.rope :: H)
        rw [hfst]
        exact ⟨b.rope, H, rfl, hundo1, hredo1, hhist⟩
      · show RedoOK rest rc.1
        rw [hfst]
        exact hrest

/-- From `Hist`, `i + 1` undos restore the `i`-th recorded rope content. -/
lemma hist_undoN (H : List (List Char)) : ∀ (b : TextBuffer),
    Hist b.undo_stack b.rope H →
    ∀ i (hi : i < H.length), ∃ b', undoN b (i + 1) = some b' ∧ b'.rope = H.get ⟨i, hi⟩ := by
  induction H with
  | nil =>
    intro b _ i hi
    exact absurd hi (by simp)
  | cons r H ih =>
    intro b hH i hi
    rcases hs : b.undo_stack with _ | ⟨a, rest⟩
    · rw [hs] at hH
      exact absurd hH (List.cons_ne_nil r H)
    · rw [hs] at hH
      obtain ⟨r', H', hEq, hau, har, hrest⟩ := hH
      injection hEq with hEq1 hEq2
      subst hEq1
      subst hEq2
      obtain ⟨rc, hrc, hfst⟩ := Option.map_eq_some'.mp hau
      have hundo := undo_cons b hs hrc
      cases i with
      | zero =>
        refine ⟨⟨rc.1, rc.2, none, rest, a :: b.redo_stack⟩, ?_, ?_⟩
        · rw [undoN_succ, hundo, Option.some_bind]
          rfl
        · exact hfst
      | succ j =>
        have hrest' : Hist rest rc.1 H := by
          rw [hfst]
          exact hrest
        obtain ⟨b', hb', hrope⟩ := ih ⟨rc.1, rc.2, none, rest, a :: b.redo_stack⟩ hrest' j
          (by simp only [List.length_cons] at hi; omega)
        refine ⟨b', ?_, hrope⟩
        rw [undoN_succ, hundo, Option.some_bind]
        exact hb'


/-- C1 is refuted: a finite sequence of public operations on the valid
one-character buffer "a" aborts out of bounds. `move_to_end` then
`start_selection` set the anchor to 1 while `has_selection` stays false
(anchor = cursor), `backspace` removes the only character without clearing
the stale anchor, and the following `insert`'s `delete_selection` slices the
now out-of-bounds range 0..1 of the empty rope (`none` models the ropey
out-of-bounds abort). -/
theorem C1_stale_anchor_out_of_bounds_abort :
    run (TextBuffer.from_str ['a'])
      [.move_to_end false, .start_selection, .backspace, .insert 'x'] = none := by
  decide

/-- C5 is refuted: a public operation can leave the selection anchor out of
bounds. After move_to_end(false); start_selection(); backspace() on "a", the
reached state has selection anchor 1 on a rope of length 0. -/
theorem C5_anchor_escapes_bounds :
    ∃ b', run (TextBuffer.from_str ['a'])
        [.move_to_end false, .start_selection, .backspace] = some b' ∧
      b'.selection_anchor = some 1 ∧ b'.rope.length = 0 :=
  ⟨⟨[], 0, some 1, [.delete 0 ['a']], []⟩, by decide, rfl, rfl⟩

/-- C2 is refuted as frozen: `move_lines_up` transposes lines without
recording any undo action, so from "x\ny" the sequence move_down(false);
move_lines_up reaches a state whose rope differs from the prior content
"x\ny" while every number of undo calls leaves the state fixed (the undo
stack is empty) — the prior rope state can never be reconstructed, although
no history-clearing edit separates the two states. -/
theorem C2_counterexample :
    ∃ b', run (TextBuffer.from_str ['x', '\n', 'y'])
        [.move_down false, .move_lines_up] = some b' ∧
      b'.rope ≠ ['x', '\n', 'y'] ∧ ∀ n, undoN b' n = some b' :=
  ⟨⟨['y', '\n', 'x', '\n'], 0, none, [], []⟩, by decide, by decide, undoN_nil rfl⟩

/-- C2 (amended): restricted to states reachable from `from_str` by the
public operations other than `move_lines_up`/`move_lines_down`. With `H` the
ghost list of recorded prior rope contents (newest first, one entry per
recorded action, popped by undo and re-pushed by redo), `i + 1` undo calls
restore exactly the `i`-th prior rope content, for every entry of `H`. -/
theorem C2_amended_undo_reconstruction {b : TextBuffer} {H : List (List Char)}
    (h : ReachH b H) :
    ∀ i (hi : i < H.length), ∃ b', undoN b (i + 1) = some b' ∧ b'.rope = H.get ⟨i, hi⟩ :=
  hist_undoN H b (reachH_hist h).1

/-- Witness for the amended C2: after inserting 'B' into "a" (a reachable
state with history ["a"]), one undo restores the rope "a". -/
theorem C2_amended_undo_reconstruction_witness :
    ∃ b', undoN ⟨['B', 'a'], 1, none, [.insert 0 ['B']], []⟩ 1 = some b' ∧
      b'.rope = ['a'] :=
  C2_amended_undo_reconstruction
    (@ReachH.ins_nosel (TextBuffer.from_str ['a']) [] 'B'
      ⟨['B', 'a'], 1, none, [.insert 0 ['B']], []⟩
      (ReachH.init ['a']) (by decide) (by decide)) 0 (by decide)

end FireNotes
